import Mathlib

set_option maxRecDepth 8192

/-!
Verification of the n8n-cli workflow synchronization core.

This file gives a shallow embedding of the Go sources
(`internal/workflow/utils.go`, the pusher, and the manifest-loading part of
`internal/cmd/workflow/workflow.go`) and proves the frozen claims about them.

Modelling conventions:
* Go `map[string]V` values are modelled as association lists
  `List (String × V)` whose list order stands for one possible iteration
  order of the Go map (Go map iteration order is unspecified and randomized,
  so theorems about map-iterating code quantify over, or are stated for,
  every such order; two lists that are permutations of each other denote the
  same Go map value).
* Go `interface{}` JSON payloads are modelled by the inductive `JValue`;
  a Go type assertion `.(string)` / `.(map[string]interface{})` corresponds
  to matching the `jstr` / `jobj` constructor.
* Go strings are modelled as Lean strings via their character lists; the Go
  byte-length test `len(name) > 200` is modelled at character granularity
  (all inputs in the claims are ASCII, where the two coincide).
* Fallible Go functions return `Except`; unbounded loops and recursion are
  given explicit fuel, with the fuel proved sufficient where a claim needs
  termination.
-/

/-- Untyped JSON value, modelling Go `interface{}` payloads of node maps.
Constructors other than `jstr`/`jobj` are never inspected by the embedded
code (every Go type assertion on them fails), matching the source. -/
inductive JValue where
  | jstr : String → JValue
  | jobj : List (String × JValue) → JValue
  | jarr : List JValue → JValue
  | jnum : Int → JValue
  | jbool : Bool → JValue
  | jnull : JValue

/-- A workflow node: Go `map[string]interface{}` as an association list. -/
abbrev Node := List (String × JValue)

/-- Go map read `m[k]` returning the value and presence: first binding wins
(Go maps have unique keys, so assoc lists that model them are keyed uniquely
wherever a claim needs it). -/
def getA {α : Type} (m : List (String × α)) (k : String) (d : α) : α :=
  match m.lookup k with
  | some v => v
  | none => d

/-- Go map write `m[k] = v`: replace the first binding of `k`, or append a
new binding if `k` is absent. -/
def setA {α : Type} : List (String × α) → String → α → List (String × α)
  | [], k, v => [(k, v)]
  | (k0, v0) :: rest, k, v =>
    if k0 = k then (k, v) :: rest else (k0, v0) :: setA rest k v

/-- Go type assertion `.(string)`. -/
def asStr : JValue → Option String
  | .jstr s => some s
  | _ => none

/-- Go type assertion `.(map[string]interface{})`. -/
def asObj : JValue → Option (List (String × JValue))
  | .jobj o => some o
  | _ => none

/-! ## Filename sanitizer (`SanitizeFilename`, utils.go lines 9-31) -/

/-- The characters removed by the regexp `[<>:"/\\|?*]`. -/
def removedChars : List Char := ['<', '>', ':', '"', '/', '\\', '|', '?', '*']

/-- Character class trimmed by `strings.Trim(name, ". ")`. -/
def isTrimChar (c : Char) : Bool := c = '.' || c = ' '

/-- `strings.Trim(name, ". ")`: drop leading and trailing `.` and space. -/
def trimDots (l : List Char) : List Char :=
  (((l.dropWhile isTrimChar).reverse).dropWhile isTrimChar).reverse

/-- First two statements of `SanitizeFilename`: replace every space with an
underscore, then delete the characters matched by `[<>:"/\\|?*]`. -/
def sanitizeReplaced (l : List Char) : List Char :=
  (l.map (fun c => if c = ' ' then '_' else c)).filter
    (fun c => !(removedChars.contains c))

/-- After `strings.Trim(name, ". ")`. -/
def sanitizeTrimmed (l : List Char) : List Char := trimDots (sanitizeReplaced l)

/-- After the `if len(name) > 200` truncation. -/
def sanitizeTrunc (l : List Char) : List Char :=
  if (sanitizeTrimmed l).length > 200 then (sanitizeTrimmed l).take 200
  else sanitizeTrimmed l

/-- Character-level body of `SanitizeFilename`: the truncated result, or the
literal `"workflow"` when it is empty. -/
def sanitizeCore (l : List Char) : List Char :=
  if sanitizeTrunc l = [] then "workflow".toList else sanitizeTrunc l

/-- `SanitizeFilename` from utils.go: replace spaces with underscores, remove
unsafe characters, trim leading/trailing dots and spaces, truncate to 200,
default to `"workflow"` when empty. -/
def sanitizeFilename (name : String) : String :=
  String.mk (sanitizeCore name.toList)

/-- Input on which sanitization is not idempotent: 199 `a`s then `.bb`.
Its length (202) exceeds 200, and truncation to 200 characters exposes a
trailing dot that a second sanitization pass trims away. -/
def cexName : String := String.mk (List.replicate 199 'a' ++ ['.', 'b', 'b'])

lemma dropWhile_eq_self_of_head {p : Char → Bool} {l : List Char}
    (h : ∀ a, l.head? = some a → p a = false) : l.dropWhile p = l := by
  cases l with
  | nil => rfl
  | cons a t =>
    have ha : p a = false := h a rfl
    simp [List.dropWhile, ha]

lemma head_dropWhile_false {p : Char → Bool} :
    ∀ (l : List Char) (a : Char), (l.dropWhile p).head? = some a → p a = false := by
  intro l
  induction l with
  | nil => intro a h; simp [List.dropWhile] at h
  | cons b t ih =>
    intro a h
    by_cases hb : p b
    · rw [List.dropWhile_cons_of_pos hb] at h
      exact ih a h
    · rw [List.dropWhile_cons_of_neg hb] at h
      simp at h
      subst h
      simpa using hb

lemma getLast?_dropWhile {p : Char → Bool} :
    ∀ (l : List Char), l.dropWhile p ≠ [] → (l.dropWhile p).getLast? = l.getLast? := by
  intro l
  induction l with
  | nil => intro h; simp [List.dropWhile] at h
  | cons b t ih =>
    intro h
    by_cases hb : p b
    · rw [List.dropWhile_cons_of_pos hb] at h ⊢
      rcases t with _ | ⟨c, t2⟩
      · simp [List.dropWhile] at h
      · rw [List.getLast?_cons_cons]
        exact ih h
    · rw [List.dropWhile_cons_of_neg hb]

lemma mem_trimDots {c : Char} {l : List Char} (h : c ∈ trimDots l) : c ∈ l := by
  unfold trimDots at h
  rw [List.mem_reverse] at h
  have h2 := (List.dropWhile_sublist _).subset h
  rw [List.mem_reverse] at h2
  exact (List.dropWhile_sublist _).subset h2

lemma head?_trimDots {l : List Char} {a : Char} (h : (trimDots l).head? = some a) :
    isTrimChar a = false := by
  unfold trimDots at h
  rw [List.head?_reverse] at h
  have hne : ((l.dropWhile isTrimChar).reverse).dropWhile isTrimChar ≠ [] := by
    intro hcon
    rw [hcon] at h
    simp at h
  rw [getLast?_dropWhile _ hne, List.getLast?_reverse] at h
  exact head_dropWhile_false _ a h

lemma getLast?_trimDots {l : List Char} {a : Char} (h : (trimDots l).getLast? = some a) :
    isTrimChar a = false := by
  unfold trimDots at h
  rw [List.getLast?_reverse] at h
  exact head_dropWhile_false _ a h

lemma sanitizeReplaced_facts {l : List Char} {c : Char} (hc : c ∈ sanitizeReplaced l) :
    c ≠ ' ' ∧ removedChars.contains c = false := by
  unfold sanitizeReplaced at hc
  rw [List.mem_filter] at hc
  obtain ⟨hmem, hkeep⟩ := hc
  rw [List.mem_map] at hmem
  obtain ⟨a, _, ha⟩ := hmem
  constructor
  · subst ha
    by_cases h : a = ' ' <;> simp [h]
  · simpa using hkeep

lemma sanitizeTrunc_facts {l : List Char} {c : Char} (hc : c ∈ sanitizeTrunc l) :
    c ≠ ' ' ∧ removedChars.contains c = false := by
  unfold sanitizeTrunc at hc
  have hmem : c ∈ sanitizeTrimmed l := by
    split at hc
    · exact (List.take_sublist _ _).subset hc
    · exact hc
  exact sanitizeReplaced_facts (mem_trimDots hmem)

lemma sanitizeTrunc_head {l : List Char} {a : Char}
    (ha : (sanitizeTrunc l).head? = some a) : isTrimChar a = false := by
  unfold sanitizeTrunc at ha
  split at ha
  · rcases h3eq : sanitizeTrimmed l with _ | ⟨b, t⟩
    · rw [h3eq] at ha; simp at ha
    · rw [h3eq] at ha
      rw [show (200 : ℕ) = 199 + 1 from rfl, List.take_succ_cons] at ha
      simp only [List.head?_cons, Option.some.injEq] at ha
      subst ha
      exact head?_trimDots (l := sanitizeReplaced l) (by
        unfold sanitizeTrimmed at h3eq
        rw [h3eq]
        rfl)
  · exact head?_trimDots (l := sanitizeReplaced l) ha

/-- Facts that hold of every output of `sanitizeCore`: no spaces, no removed
characters, nonempty, at most 200 characters, and a first character that is
neither a dot nor a space. -/
lemma sanitizeCore_facts (l : List Char) :
    (∀ c ∈ sanitizeCore l, c ≠ ' ' ∧ removedChars.contains c = false) ∧
    sanitizeCore l ≠ [] ∧ (sanitizeCore l).length ≤ 200 ∧
    (∀ a, (sanitizeCore l).head? = some a → isTrimChar a = false) := by
  unfold sanitizeCore
  split
  · refine ⟨?_, by simp, by simp, ?_⟩
    · intro c hc
      simp only [String.toList] at hc
      fin_cases hc <;> simp [removedChars]
    · intro a ha
      simp only [String.toList] at ha
      simp at ha
      subst ha
      rfl
  · refine ⟨fun c hc => sanitizeTrunc_facts hc, by assumption, ?_, fun a ha => sanitizeTrunc_head ha⟩
    unfold sanitizeTrunc
    split
    · simp
    · omega

lemma filter_eq_self_of {p : Char → Bool} {l : List Char}
    (h : ∀ c ∈ l, p c = true) : l.filter p = l := by
  induction l with
  | nil => rfl
  | cons a t ih =>
    have := h a (by simp)
    simp [List.filter, this, ih fun c hc => h c (by simp [hc])]

lemma map_eq_self_of {f : Char → Char} {l : List Char}
    (h : ∀ c ∈ l, f c = c) : l.map f = l := by
  induction l with
  | nil => rfl
  | cons a t ih =>
    simp [h a (by simp), ih fun c hc => h c (by simp [hc])]

lemma getLast?_mem_of {l : List Char} {a : Char} (h : l.getLast? = some a) : a ∈ l := by
  rw [← List.head?_reverse] at h
  rcases hrev : l.reverse with _ | ⟨b, t⟩
  · rw [hrev] at h; simp at h
  · rw [hrev] at h
    simp at h
    subst h
    rw [← List.mem_reverse, hrev]
    simp

/-- A second `sanitizeCore` pass leaves any output of a first pass unchanged,
provided the first pass did not end with a dot (truncation to 200 characters
is the only step that can expose one). -/
lemma sanitizeCore_idem (l : List Char)
    (h : ∀ a, (sanitizeCore l).getLast? = some a → a ≠ '.') :
    sanitizeCore (sanitizeCore l) = sanitizeCore l := by
  obtain ⟨hclean, hne, hlen, hhead⟩ := sanitizeCore_facts l
  set r := sanitizeCore l with hr
  have hlast : ∀ a, r.getLast? = some a → isTrimChar a = false := by
    intro a ha
    have hmem := getLast?_mem_of ha
    have := (hclean a hmem).1
    have hdot := h a ha
    simp [isTrimChar, this, hdot]
  have e1 : sanitizeReplaced r = r := by
    unfold sanitizeReplaced
    rw [map_eq_self_of fun c hc => by simp [(hclean c hc).1]]
    exact filter_eq_self_of fun c hc => by simpa using (hclean c hc).2
  have e3 : sanitizeTrimmed r = r := by
    unfold sanitizeTrimmed trimDots
    rw [e1, dropWhile_eq_self_of_head hhead]
    rw [dropWhile_eq_self_of_head (by
      intro a ha
      rw [List.head?_reverse] at ha
      exact hlast a ha)]
    exact List.reverse_reverse r
  have e4 : sanitizeTrunc r = r := by
    unfold sanitizeTrunc
    rw [e3, if_neg (by omega)]
  unfold sanitizeCore
  rw [e4, if_neg hne]

/-- C7 counterexample: the claim "sanitize(sanitize(name)) = sanitize(name)
for every input string" is false at `cexName` (199 `a`s followed by `.bb`):
the first pass truncates to 200 characters, exposing a trailing dot, and the
second pass trims it away. -/
theorem sanitizeFilename_not_idempotent_cex :
    sanitizeFilename (sanitizeFilename cexName) ≠ sanitizeFilename cexName := by
  decide

/-- C7 (amended): the filename sanitizer is idempotent on every input whose
sanitized form does not end with a dot; a trailing dot can arise only when
the 200-character truncation exposes one, in which case a second pass trims
it (see the counterexample). -/
theorem sanitizeFilename_idempotent (name : String)
    (h : ∀ a, (sanitizeFilename name).toList.getLast? = some a → a ≠ '.') :
    sanitizeFilename (sanitizeFilename name) = sanitizeFilename name := by
  unfold sanitizeFilename at h ⊢
  exact congrArg String.mk (sanitizeCore_idem name.toList h)

/-- Witness for the amended C7 at the concrete input `"ab."`. -/
theorem sanitizeFilename_idempotent_witness :
    (∀ a, (sanitizeFilename "ab.").toList.getLast? = some a → a ≠ '.') ∧
    sanitizeFilename (sanitizeFilename "ab.") = sanitizeFilename "ab." :=
  ⟨by decide, sanitizeFilename_idempotent "ab." (by decide)⟩

/-! ## Reference extractor (`ExtractSubWorkflowIDs`, utils.go lines 34-86) -/

/-- The two recognized execute-sub-workflow type tags. -/
def isExecType (t : String) : Bool :=
  t == "n8n-nodes-base.executeWorkflow" || t == "n8n-nodes-base.executeWorkflowTrigger"

/-- `if !seen[wfID] { ids = append(ids, wfID); seen[wfID] = true }`: state is
the pair `(ids, seen)`, with the Go `map[string]bool` seen-set as a list. -/
def addId (acc : List String × List String) (wfID : String) :
    List String × List String :=
  if wfID ∈ acc.2 then acc else (acc.1 ++ [wfID], acc.2 ++ [wfID])

/-- First parameter shape: direct `workflowId` string. -/
def extractShape1 (params : List (String × JValue)) (acc : List String × List String) :
    List String × List String :=
  match params.lookup "workflowId" with
  | some (JValue.jstr wfID) => if wfID ≠ "" then addId acc wfID else acc
  | _ => acc

/-- Second parameter shape: `workflow` object with an `id` string field. -/
def extractShape2 (params : List (String × JValue)) (acc : List String × List String) :
    List String × List String :=
  match (params.lookup "workflow").bind asObj with
  | some wf =>
    match wf.lookup "id" with
    | some (JValue.jstr wfID) => if wfID ≠ "" then addId acc wfID else acc
    | _ => acc
  | none => acc

/-- Third parameter shape: `workflowId` object with a `value` string field. -/
def extractShape3 (params : List (String × JValue)) (acc : List String × List String) :
    List String × List String :=
  match (params.lookup "workflowId").bind asObj with
  | some wfValue =>
    match wfValue.lookup "value" with
    | some (JValue.jstr v) => if v ≠ "" then addId acc v else acc
    | _ => acc
  | none => acc

/-- One iteration of the node loop of `ExtractSubWorkflowIDs`: skip nodes
without a string type tag or with an unrecognized tag, then try the three
parameter shapes in source order. -/
def extractFromNode (acc : List String × List String) (node : Node) :
    List String × List String :=
  match (node.lookup "type").bind asStr with
  | none => acc
  | some t =>
    if isExecType t then
      match (node.lookup "parameters").bind asObj with
      | none => acc
      | some params => extractShape3 params (extractShape2 params (extractShape1 params acc))
    else acc

/-- `ExtractSubWorkflowIDs` from utils.go. -/
def extractSubWorkflowIDs (nodes : List Node) : List String :=
  (nodes.foldl extractFromNode ([], [])).1

/-- Candidate id of the first shape, as a zero- or one-element list. -/
def shape1Refs (params : List (String × JValue)) : List String :=
  match params.lookup "workflowId" with
  | some (JValue.jstr wfID) => if wfID ≠ "" then [wfID] else []
  | _ => []

/-- Candidate id of the second shape. -/
def shape2Refs (params : List (String × JValue)) : List String :=
  match (params.lookup "workflow").bind asObj with
  | some wf =>
    match wf.lookup "id" with
    | some (JValue.jstr wfID) => if wfID ≠ "" then [wfID] else []
    | _ => []
  | none => []

/-- Candidate id of the third shape. -/
def shape3Refs (params : List (String × JValue)) : List String :=
  match (params.lookup "workflowId").bind asObj with
  | some wfValue =>
    match wfValue.lookup "value" with
    | some (JValue.jstr v) => if v ≠ "" then [v] else []
    | _ => []
  | none => []

/-- The ordered list of reference candidates contributed by one node: the
three accepted shapes in source order with empty ids dropped, without
deduplication.  States the extractor's contract; nodes with other type tags
or malformed parameter shapes contribute the empty list. -/
def nodeRefs (node : Node) : List String :=
  match (node.lookup "type").bind asStr with
  | none => []
  | some t =>
    if isExecType t then
      match (node.lookup "parameters").bind asObj with
      | none => []
      | some params => shape1Refs params ++ (shape2Refs params ++ shape3Refs params)
    else []

/-- Insert with first-occurrence deduplication. -/
def dedupIns (acc : List String) (x : String) : List String :=
  if x ∈ acc then acc else acc ++ [x]

/-- First-occurrence-order deduplication of a list. -/
def dedupFirst (l : List String) : List String := l.foldl dedupIns []

lemma addId_diag (ids : List String) (x : String) :
    addId (ids, ids) x = (dedupIns ids x, dedupIns ids x) := by
  unfold addId dedupIns
  split <;> rfl

lemma extractShape1_diag (params : List (String × JValue)) (ids : List String) :
    extractShape1 params (ids, ids)
      = ((shape1Refs params).foldl dedupIns ids, (shape1Refs params).foldl dedupIns ids) := by
  unfold extractShape1 shape1Refs
  cases hj : params.lookup "workflowId" with
  | none => rfl
  | some j =>
    cases j <;> try rfl
    case jstr s =>
      dsimp only
      by_cases hs : s ≠ ""
      · rw [if_pos hs, if_pos hs]
        simp [addId_diag]
      · rw [if_neg hs, if_neg hs]
        rfl

lemma extractShape2_diag (params : List (String × JValue)) (ids : List String) :
    extractShape2 params (ids, ids)
      = ((shape2Refs params).foldl dedupIns ids, (shape2Refs params).foldl dedupIns ids) := by
  unfold extractShape2 shape2Refs
  cases hj : (params.lookup "workflow").bind asObj with
  | none => rfl
  | some wf =>
    dsimp only
    cases hid : wf.lookup "id" with
    | none => rfl
    | some j =>
      cases j <;> try rfl
      case jstr s =>
        dsimp only
        by_cases hs : s ≠ ""
        · rw [if_pos hs, if_pos hs]
          simp [addId_diag]
        · rw [if_neg hs, if_neg hs]
          rfl

lemma extractShape3_diag (params : List (String × JValue)) (ids : List String) :
    extractShape3 params (ids, ids)
      = ((shape3Refs params).foldl dedupIns ids, (shape3Refs params).foldl dedupIns ids) := by
  unfold extractShape3 shape3Refs
  cases hj : (params.lookup "workflowId").bind asObj with
  | none => rfl
  | some wfValue =>
    dsimp only
    cases hv : wfValue.lookup "value" with
    | none => rfl
    | some j =>
      cases j <;> try rfl
      case jstr s =>
        dsimp only
        by_cases hs : s ≠ ""
        · rw [if_pos hs, if_pos hs]
          simp [addId_diag]
        · rw [if_neg hs, if_neg hs]
          rfl

lemma extractFromNode_eq (ids : List String) (node : Node) :
    extractFromNode (ids, ids) node
      = ((nodeRefs node).foldl dedupIns ids, (nodeRefs node).foldl dedupIns ids) := by
  unfold extractFromNode nodeRefs
  cases htype : (node.lookup "type").bind asStr with
  | none => rfl
  | some t =>
    dsimp only
    by_cases ht : isExecType t = true
    · rw [if_pos ht, if_pos ht]
      cases hpar : (node.lookup "parameters").bind asObj with
      | none => rfl
      | some params =>
        dsimp only
        rw [List.foldl_append, List.foldl_append, extractShape1_diag,
          extractShape2_diag, extractShape3_diag]
    · rw [if_neg ht, if_neg ht]
      rfl

lemma extract_fold (nodes : List Node) : ∀ ids : List String,
    nodes.foldl extractFromNode (ids, ids)
      = ((nodes.flatMap nodeRefs).foldl dedupIns ids,
         (nodes.flatMap nodeRefs).foldl dedupIns ids) := by
  induction nodes with
  | nil => intro ids; rfl
  | cons n rest ih =>
    intro ids
    rw [List.foldl_cons, List.flatMap_cons, List.foldl_append, extractFromNode_eq, ih]

lemma dedupIns_nodup {acc : List String} (h : acc.Nodup) (x : String) :
    (dedupIns acc x).Nodup := by
  unfold dedupIns
  split
  · exact h
  · rename_i hx
    rw [List.nodup_append]
    refine ⟨h, List.nodup_singleton x, ?_⟩
    intro a ha hb
    simp at hb
    subst hb
    exact hx ha

lemma dedup_foldl_nodup (l : List String) : ∀ acc : List String, acc.Nodup →
    (l.foldl dedupIns acc).Nodup := by
  induction l with
  | nil => intro acc h; exact h
  | cons x rest ih =>
    intro acc h
    exact ih _ (dedupIns_nodup h x)

/-- C4: `ExtractSubWorkflowIDs` returns, for every node list, exactly the
first-occurrence-order deduplication of the per-node reference candidates
(`nodeRefs`: the three accepted shapes of the two execute-sub-workflow type
tags, non-empty ids only, with unrecognized or malformed nodes contributing
nothing), and the result has no duplicates.  The function is total, so it
never fails. -/
theorem extractSubWorkflowIDs_spec (nodes : List Node) :
    extractSubWorkflowIDs nodes = dedupFirst (nodes.flatMap nodeRefs) ∧
    (extractSubWorkflowIDs nodes).Nodup := by
  unfold extractSubWorkflowIDs dedupFirst
  rw [extract_fold nodes []]
  exact ⟨rfl, dedup_foldl_nodup _ [] (List.nodup_nil)⟩

/-! ## Reference rewriter (`Pusher.updateSubWorkflowReferences`) -/

lemma lookup_setA_self {α : Type} (m : List (String × α)) (k : String) (v : α) :
    (setA m k v).lookup k = some v := by
  induction m with
  | nil => simp [setA, List.lookup]
  | cons p rest ih =>
    obtain ⟨k0, v0⟩ := p
    unfold setA
    by_cases h : k0 = k
    · rw [if_pos h]
      simp [List.lookup]
    · rw [if_neg h]
      simpa [List.lookup, beq_false_of_ne (fun hk => h hk.symm)] using ih

lemma lookup_setA_of_ne {α : Type} (m : List (String × α)) {k k' : String} (v : α)
    (h : k' ≠ k) : (setA m k v).lookup k' = m.lookup k' := by
  induction m with
  | nil => simp [setA, List.lookup, beq_false_of_ne h]
  | cons p rest ih =>
    obtain ⟨k0, v0⟩ := p
    unfold setA
    by_cases hk : k0 = k
    · rw [if_pos hk]
      subst hk
      simp [List.lookup, beq_false_of_ne h]
    · rw [if_neg hk]
      by_cases hk' : k' = k0
      · subst hk'
        simp [List.lookup]
      · simp [List.lookup, beq_false_of_ne hk', ih]

/-- `params["workflowId"] = newID` block of `updateSubWorkflowReferences`:
replace a direct workflow-id string that has a translation. -/
def rewriteDirect (idMapping : List (String × String))
    (params : List (String × JValue)) : List (String × JValue) :=
  match params.lookup "workflowId" with
  | some (JValue.jstr oldID) =>
    match idMapping.lookup oldID with
    | some newID => setA params "workflowId" (JValue.jstr newID)
    | none => params
  | _ => params

/-- `wfObj["id"] = newID` block of `updateSubWorkflowReferences`: replace the
`id` field of a nested `workflow` object that has a translation. -/
def rewriteNested (idMapping : List (String × String))
    (params : List (String × JValue)) : List (String × JValue) :=
  match (params.lookup "workflow").bind asObj with
  | some wfObj =>
    match wfObj.lookup "id" with
    | some (JValue.jstr oldID) =>
      match idMapping.lookup oldID with
      | some newID => setA params "workflow" (JValue.jobj (setA wfObj "id" (JValue.jstr newID)))
      | none => params
    | _ => params
  | none => params

/-- One iteration of the node loop of `updateSubWorkflowReferences`.  The Go
code mutates the shared `params` map in place; writing the final parameter
map back into the node renders that aliasing functionally (when neither
block fires the write stores the value already present, leaving the node
unchanged, see `rewriteNode_skip`). -/
def rewriteNode (idMapping : List (String × String)) (node : Node) : Node :=
  match (node.lookup "type").bind asStr with
  | none => node
  | some t =>
    if t ≠ "n8n-nodes-base.executeWorkflow" then node
    else
      match (node.lookup "parameters").bind asObj with
      | none => node
      | some params =>
        setA node "parameters"
          (JValue.jobj (rewriteNested idMapping (rewriteDirect idMapping params)))

/-- `Pusher.updateSubWorkflowReferences` over the node list of a workflow. -/
def updateSubWorkflowReferences (idMapping : List (String × String))
    (nodes : List Node) : List Node :=
  nodes.map (rewriteNode idMapping)

lemma setA_eq_self {α : Type} (m : List (String × α)) (k : String) (v : α)
    (h : m.lookup k = some v) : setA m k v = m := by
  induction m with
  | nil => simp [List.lookup] at h
  | cons p rest ih =>
    obtain ⟨k0, v0⟩ := p
    unfold setA
    by_cases hk : k0 = k
    · rw [if_pos hk]
      subst hk
      simp [List.lookup] at h
      rw [h]
    · rw [if_neg hk]
      rw [List.lookup] at h
      rw [beq_false_of_ne (fun hke => hk hke.symm)] at h
      simp at h
      rw [ih h]

lemma rewriteDirect_lookup_other (idMapping : List (String × String))
    (params : List (String × JValue)) {key : String} (h : key ≠ "workflowId") :
    (rewriteDirect idMapping params).lookup key = params.lookup key := by
  unfold rewriteDirect
  cases hj : params.lookup "workflowId" with
  | none => rfl
  | some j =>
    cases j <;> try rfl
    case jstr oldID =>
      dsimp only
      cases hm : idMapping.lookup oldID with
      | none => rfl
      | some newID => exact lookup_setA_of_ne _ _ h

lemma rewriteNested_lookup_other (idMapping : List (String × String))
    (params : List (String × JValue)) {key : String} (h : key ≠ "workflow") :
    (rewriteNested idMapping params).lookup key = params.lookup key := by
  unfold rewriteNested
  cases hj : (params.lookup "workflow").bind asObj with
  | none => rfl
  | some wfObj =>
    dsimp only
    cases hid : wfObj.lookup "id" with
    | none => rfl
    | some j =>
      cases j <;> try rfl
      case jstr oldID =>
        dsimp only
        cases hm : idMapping.lookup oldID with
        | none => rfl
        | some newID => exact lookup_setA_of_ne _ _ h

lemma asObj_eq_some {j : JValue} {o : List (String × JValue)}
    (h : asObj j = some o) : j = JValue.jobj o := by
  cases j <;> simp [asObj] at h
  rw [h]

lemma bind_asObj_eq_some {x : Option JValue} {o : List (String × JValue)}
    (h : x.bind asObj = some o) : x = some (JValue.jobj o) := by
  cases x with
  | none => simp at h
  | some j => simpa using congrArg some (asObj_eq_some (by simpa using h))

lemma rewriteDirect_mapped {idMapping : List (String × String)}
    {params : List (String × JValue)} {old new : String}
    (h1 : params.lookup "workflowId" = some (JValue.jstr old))
    (h2 : idMapping.lookup old = some new) :
    rewriteDirect idMapping params = setA params "workflowId" (JValue.jstr new) := by
  unfold rewriteDirect
  rw [h1]
  dsimp only
  rw [h2]

lemma rewriteDirect_unmapped {idMapping : List (String × String)}
    {params : List (String × JValue)} {old : String}
    (h1 : params.lookup "workflowId" = some (JValue.jstr old))
    (h2 : idMapping.lookup old = none) :
    rewriteDirect idMapping params = params := by
  unfold rewriteDirect
  rw [h1]
  dsimp only
  rw [h2]

lemma rewriteNested_mapped {idMapping : List (String × String)}
    {params wfObj : List (String × JValue)} {old new : String}
    (h1 : params.lookup "workflow" = some (JValue.jobj wfObj))
    (h2 : wfObj.lookup "id" = some (JValue.jstr old))
    (h3 : idMapping.lookup old = some new) :
    rewriteNested idMapping params
      = setA params "workflow" (JValue.jobj (setA wfObj "id" (JValue.jstr new))) := by
  unfold rewriteNested
  rw [h1]
  dsimp only [Option.some_bind, asObj]
  rw [h2]
  dsimp only
  rw [h3]

lemma rewriteNested_unmapped {idMapping : List (String × String)}
    {params wfObj : List (String × JValue)} {old : String}
    (h1 : params.lookup "workflow" = some (JValue.jobj wfObj))
    (h2 : wfObj.lookup "id" = some (JValue.jstr old))
    (h3 : idMapping.lookup old = none) :
    rewriteNested idMapping params = params := by
  unfold rewriteNested
  rw [h1]
  dsimp only [Option.some_bind, asObj]
  rw [h2]
  dsimp only
  rw [h3]

/-- When neither rewrite block changes the parameter map, the node comes out
of the loop iteration unchanged (the write stores the value that is already
there). -/
lemma rewriteNode_skip {idMapping : List (String × String)} {node : Node}
    {params : List (String × JValue)}
    (hpar : (node.lookup "parameters").bind asObj = some params)
    (hid : rewriteNested idMapping (rewriteDirect idMapping params) = params) :
    rewriteNode idMapping node = node := by
  unfold rewriteNode
  cases htype : (node.lookup "type").bind asStr with
  | none => rfl
  | some t =>
    dsimp only
    split
    · rfl
    · rw [hpar]
      dsimp only
      rw [hid]
      exact setA_eq_self _ _ _ (bind_asObj_eq_some hpar)

/-- C5: the reference rewriter rewrites only non-trigger execute-sub-workflow
nodes: (a) any node with a different type tag (the trigger variant included)
is returned unchanged; (b) a direct `workflowId` string with a translation is
replaced by the mapped value; (c) the `id` of a nested `workflow` object with
a translation is replaced by the mapped value; (d, e) ids without an entry in
the translation table are left unchanged in both positions. -/
theorem updateSubWorkflowReferences_spec (mapping : List (String × String)) :
    (∀ nodes, updateSubWorkflowReferences mapping nodes = nodes.map (rewriteNode mapping)) ∧
    (∀ (node : Node) (t : String), (node.lookup "type").bind asStr = some t →
      t ≠ "n8n-nodes-base.executeWorkflow" → rewriteNode mapping node = node) ∧
    (∀ (node : Node) (params : List (String × JValue)) (old new : String),
      (node.lookup "type").bind asStr = some "n8n-nodes-base.executeWorkflow" →
      (node.lookup "parameters").bind asObj = some params →
      params.lookup "workflowId" = some (JValue.jstr old) →
      mapping.lookup old = some new →
      ∃ p2, (rewriteNode mapping node).lookup "parameters" = some (JValue.jobj p2) ∧
        p2.lookup "workflowId" = some (JValue.jstr new)) ∧
    (∀ (node : Node) (params wfObj : List (String × JValue)) (old new : String),
      (node.lookup "type").bind asStr = some "n8n-nodes-base.executeWorkflow" →
      (node.lookup "parameters").bind asObj = some params →
      params.lookup "workflow" = some (JValue.jobj wfObj) →
      wfObj.lookup "id" = some (JValue.jstr old) →
      mapping.lookup old = some new →
      ∃ p2 w2, (rewriteNode mapping node).lookup "parameters" = some (JValue.jobj p2) ∧
        p2.lookup "workflow" = some (JValue.jobj w2) ∧
        w2.lookup "id" = some (JValue.jstr new)) ∧
    (∀ (node : Node) (params : List (String × JValue)) (old : String),
      (node.lookup "type").bind asStr = some "n8n-nodes-base.executeWorkflow" →
      (node.lookup "parameters").bind asObj = some params →
      params.lookup "workflowId" = some (JValue.jstr old) →
      mapping.lookup old = none →
      ∃ p2, (rewriteNode mapping node).lookup "parameters" = some (JValue.jobj p2) ∧
        p2.lookup "workflowId" = some (JValue.jstr old)) ∧
    (∀ (node : Node) (params wfObj : List (String × JValue)) (old : String),
      (node.lookup "type").bind asStr = some "n8n-nodes-base.executeWorkflow" →
      (node.lookup "parameters").bind asObj = some params →
      params.lookup "workflow" = some (JValue.jobj wfObj) →
      wfObj.lookup "id" = some (JValue.jstr old) →
      mapping.lookup old = none →
      ∃ p2 w2, (rewriteNode mapping node).lookup "parameters" = some (JValue.jobj p2) ∧
        p2.lookup "workflow" = some (JValue.jobj w2) ∧
        w2.lookup "id" = some (JValue.jstr old)) := by
  refine ⟨fun nodes => rfl, ?_, ?_, ?_, ?_, ?_⟩
  · intro node t htype hne
    unfold rewriteNode
    rw [htype]
    dsimp only
    rw [if_pos hne]
  · intro node params old new htype hpar hwfid hmap
    unfold rewriteNode
    rw [htype]
    dsimp only
    rw [if_neg (by simp), hpar]
    dsimp only
    refine ⟨rewriteNested mapping (rewriteDirect mapping params),
      lookup_setA_self _ _ _, ?_⟩
    rw [rewriteNested_lookup_other mapping _ (by decide),
      rewriteDirect_mapped hwfid hmap]
    exact lookup_setA_self _ _ _
  · intro node params wfObj old new htype hpar hw hid hmap
    unfold rewriteNode
    rw [htype]
    dsimp only
    rw [if_neg (by simp), hpar]
    dsimp only
    have h1w : (rewriteDirect mapping params).lookup "workflow"
        = some (JValue.jobj wfObj) := by
      rw [rewriteDirect_lookup_other mapping _ (by decide)]
      exact hw
    rw [rewriteNested_mapped h1w hid hmap]
    exact ⟨_, _, lookup_setA_self _ _ _,
      lookup_setA_self _ _ _, lookup_setA_self _ _ _⟩
  · intro node params old htype hpar hwfid hmap
    unfold rewriteNode
    rw [htype]
    dsimp only
    rw [if_neg (by simp), hpar]
    dsimp only
    refine ⟨rewriteNested mapping (rewriteDirect mapping params),
      lookup_setA_self _ _ _, ?_⟩
    rw [rewriteNested_lookup_other mapping _ (by decide),
      rewriteDirect_unmapped hwfid hmap]
    exact hwfid
  · intro node params wfObj old htype hpar hw hid hmap
    unfold rewriteNode
    rw [htype]
    dsimp only
    rw [if_neg (by simp), hpar]
    dsimp only
    have h1w : (rewriteDirect mapping params).lookup "workflow"
        = some (JValue.jobj wfObj) := by
      rw [rewriteDirect_lookup_other mapping _ (by decide)]
      exact hw
    rw [rewriteNested_unmapped h1w hid hmap]
    exact ⟨_, _, lookup_setA_self _ _ _, h1w, hid⟩

/-- Concrete execute-workflow node with a direct `workflowId` string. -/
def rwNode0 : Node :=
  [("type", JValue.jstr "n8n-nodes-base.executeWorkflow"),
   ("parameters", JValue.jobj [("workflowId", JValue.jstr "old1")])]

/-- Witness for C5 at the translation table `old1 -> new1` and `rwNode0`. -/
theorem updateSubWorkflowReferences_spec_witness :
    ∃ p2, (rewriteNode [("old1", "new1")] rwNode0).lookup "parameters"
        = some (JValue.jobj p2) ∧
      p2.lookup "workflowId" = some (JValue.jstr "new1") :=
  (updateSubWorkflowReferences_spec [("old1", "new1")]).2.2.1 rwNode0
    [("workflowId", JValue.jstr "old1")] "old1" "new1" rfl rfl rfl rfl

lemma rewriteDirect_obj {idMapping : List (String × String)}
    {params wfVal : List (String × JValue)}
    (h : params.lookup "workflowId" = some (JValue.jobj wfVal)) :
    rewriteDirect idMapping params = params := by
  unfold rewriteDirect
  rw [h]

/-- C10: the rewriter never touches the expression-mode reference shape: when
a node's `workflowId` parameter is an object whose `value` string names a
workflow, that object survives rewriting unchanged even when its `value` id
has an entry in the translation table — although the extractor's third shape
recognizes exactly this reference (first conjunct). -/
theorem rewriteNode_keeps_expression_reference (mapping : List (String × String))
    (node : Node) (params wfVal : List (String × JValue)) (v new : String)
    (hpar : node.lookup "parameters" = some (JValue.jobj params))
    (hshape : params.lookup "workflowId" = some (JValue.jobj wfVal))
    (hval : wfVal.lookup "value" = some (JValue.jstr v))
    (hmap : mapping.lookup v = some new) :
    (v ≠ "" → shape3Refs params = [v]) ∧
    ∃ p2, (rewriteNode mapping node).lookup "parameters" = some (JValue.jobj p2) ∧
      p2.lookup "workflowId" = some (JValue.jobj wfVal) := by
  constructor
  · intro hv
    unfold shape3Refs
    rw [hshape]
    dsimp only [Option.some_bind, asObj]
    rw [hval]
    dsimp only
    rw [if_pos hv]
  · unfold rewriteNode
    cases htype : (node.lookup "type").bind asStr with
    | none => exact ⟨params, hpar, hshape⟩
    | some t =>
      dsimp only
      split
      · exact ⟨params, hpar, hshape⟩
      · rw [show (node.lookup "parameters").bind asObj = some params by
          rw [hpar]; rfl]
        dsimp only
        refine ⟨rewriteNested mapping (rewriteDirect mapping params),
          lookup_setA_self _ _ _, ?_⟩
        rw [rewriteNested_lookup_other mapping _ (by decide),
          rewriteDirect_obj hshape]
        exact hshape

/-- Concrete execute-workflow node holding an expression-mode reference. -/
def exprNode0 : Node :=
  [("type", JValue.jstr "n8n-nodes-base.executeWorkflow"),
   ("parameters", JValue.jobj
     [("workflowId", JValue.jobj [("value", JValue.jstr "old1")])])]

/-- Witness for C10 at `exprNode0` with translation table `old1 -> new1`. -/
theorem rewriteNode_keeps_expression_reference_witness :
    ((("old1" : String) ≠ "" →
        shape3Refs [("workflowId", JValue.jobj [("value", JValue.jstr "old1")])] = ["old1"]) ∧
      ∃ p2, (rewriteNode [("old1", "new1")] exprNode0).lookup "parameters"
          = some (JValue.jobj p2) ∧
        p2.lookup "workflowId"
          = some (JValue.jobj [("value", JValue.jstr "old1")])) :=
  rewriteNode_keeps_expression_reference [("old1", "new1")] exprNode0
    [("workflowId", JValue.jobj [("value", JValue.jstr "old1")])]
    [("value", JValue.jstr "old1")] "old1" "new1" rfl rfl rfl rfl

/-! ## Manifest data model (`internal/workflow/` manifest types) -/

/-- `WorkflowMeta` from the manifest. -/
structure WorkflowMeta where
  id : String
  name : String
  filename : String
  active : Bool
deriving DecidableEq

/-- `Manifest`: the Go maps are rendered as association lists in iteration
order; two permuted lists denote the same Go map value.  The optional
`instance` field carries no behavior and is omitted. -/
structure Manifest where
  rootWorkflow : String
  workflows : List (String × WorkflowMeta)
  dependencies : List (String × List String)
deriving DecidableEq

/-! ## Manifest loading in `pushDirectory` (workflow.go lines 339-349) -/

/-- Failure modes of the external `os.ReadFile` collaborator: the file may be
absent, or present but unreadable. -/
inductive ReadErr where
  | notFound
  | permissionDenied
deriving DecidableEq

/-- The manifest-loading prefix of `pushDirectory`: any read failure is
reported as `no manifest.json found in directory`; a read that succeeds but
whose contents fail to parse is reported as `failed to parse manifest`.  The
read result and the JSON decoder are external collaborators passed as
values. -/
def loadManifest (readResult : Except ReadErr String)
    (parse : String → Except String Manifest) : Except String Manifest :=
  match readResult with
  | .error _ => .error "no manifest.json found in directory"
  | .ok data =>
    match parse data with
    | .error e => .error ("failed to parse manifest: " ++ e)
    | .ok m => .ok m

/-- A decoder that always fails, standing for a malformed manifest file. -/
def parseReject : String → Except String Manifest :=
  fun _ => Except.error "unexpected end of JSON input"

/-- C9 counterexample: a manifest file that exists but cannot be read
(`permissionDenied`) produces exactly the same error as an absent manifest
file (`notFound`), refuting the claimed distinction between the "no
manifest" case and the "exists but cannot be read" case. -/
theorem loadManifest_read_error_cex :
    loadManifest (Except.error ReadErr.permissionDenied) parseReject
      = loadManifest (Except.error ReadErr.notFound) parseReject := rfl

/-- C9 (amended): a missing manifest is fatal, every read failure (absent or
unreadable alike) is reported as `no manifest.json found in directory`, and a
manifest that is read but fails to parse is reported with the distinct
`failed to parse manifest` message. -/
theorem loadManifest_error_messages (parse : String → Except String Manifest) :
    (∀ e, loadManifest (Except.error e) parse
        = Except.error "no manifest.json found in directory") ∧
    (∀ data msg, parse data = Except.error msg →
      loadManifest (Except.ok data) parse
        = Except.error ("failed to parse manifest: " ++ msg)) ∧
    (∀ msg, ("failed to parse manifest: " ++ msg)
        ≠ "no manifest.json found in directory") := by
  refine ⟨fun e => rfl, fun data msg h => by unfold loadManifest; dsimp only; rw [h], ?_⟩
  intro msg h
  have h3 := congrArg String.data h
  rw [String.data_append] at h3
  have h4 : ("no manifest.json found in directory").data.head? = some 'f' := by
    rw [← h3]
    rfl
  exact absurd h4 (by decide)

/-- Witness for the amended C9 at a concrete failing decoder. -/
theorem loadManifest_error_messages_witness :
    parseReject "garbage" = Except.error "unexpected end of JSON input" ∧
    loadManifest (Except.ok "garbage") parseReject
      = Except.error "failed to parse manifest: unexpected end of JSON input" :=
  ⟨rfl, (loadManifest_error_messages parseReject).2.1 "garbage"
    "unexpected end of JSON input" rfl⟩

/-! ## Recursive puller (`RecursivePuller`, utils.go lines 88-195) -/

/-- The fields of `api.Workflow` the puller reads (`ID`, `Name`, `Active`,
`Nodes`); the remaining fields do not influence the embedded code. -/
structure Workflow where
  id : String
  name : String
  active : Bool
  nodes : List Node

/-- State of a `RecursivePuller`: the `pulled` map and the manifest's
workflow and dependency maps, plus two traces: the warnings printed for
failed sub-workflow fetches, and the sequence of `GetWorkflow` calls issued
(instrumentation for the exactly-once claim). -/
structure PullState where
  pulled : List (String × Workflow)
  workflows : List (String × WorkflowMeta)
  dependencies : List (String × List String)
  warnings : List String
  calls : List String

/-- The empty state `NewRecursivePuller` starts from. -/
def pullInit : PullState := ⟨[], [], [], [], []⟩

mutual
/-- `RecursivePuller.pullRecursive`.  `fetch` is the remote collaborator
(`client.GetWorkflow`).  A fetch failure returns the wrapped error message
together with the state (whose Go fields are unchanged by the failing call;
only the instrumentation trace `calls` records the attempt).  The fuel
argument makes the recursion structural; it is proved irrelevant for
sufficiently large values where a claim needs termination. -/
def pullRecursive (fetch : String → Except String Workflow) :
    Nat → String → PullState → PullState × Option String
  | 0, _, st => (st, some "out of fuel")
  | fuel + 1, workflowID, st =>
    if (st.pulled.lookup workflowID).isSome then (st, none)
    else
      let st0 := { st with calls := st.calls ++ [workflowID] }
      match fetch workflowID with
      | Except.error e =>
        (st0, some ("failed to get workflow " ++ workflowID ++ ": " ++ e))
      | Except.ok wf =>
        let subIDs := extractSubWorkflowIDs wf.nodes
        let st1 : PullState :=
          { st0 with
            pulled := st0.pulled ++ [(workflowID, wf)]
            workflows := st0.workflows ++
              [(workflowID,
                ⟨wf.id, wf.name, sanitizeFilename wf.name ++ ".json", wf.active⟩)]
            dependencies :=
              if subIDs ≠ [] then st0.dependencies ++ [(workflowID, subIDs)]
              else st0.dependencies }
        (pullSubs fetch fuel subIDs st1, none)
termination_by fuel _ _ => (fuel, 0)

/-- The sub-workflow loop of `pullRecursive`: recurse on each extracted id,
downgrading a failed recursive call to a warning and continuing. -/
def pullSubs (fetch : String → Except String Workflow) :
    Nat → List String → PullState → PullState
  | _, [], st => st
  | fuel, subID :: rest, st =>
    match pullRecursive fetch fuel subID st with
    | (st2, none) => pullSubs fetch fuel rest st2
    | (st2, some e) =>
      pullSubs fetch fuel rest
        { st2 with warnings := st2.warnings ++
            ["Warning: could not pull sub-workflow " ++ subID ++ ": " ++ e] }
termination_by fuel l _ => (fuel, l.length + 1)
end

/-- `RecursivePuller.Pull`: run the recursion from the empty state; a
reported error aborts the operation with no result. -/
def pull (fetch : String → Except String Workflow) (fuel : Nat)
    (workflowID : String) : Except String PullState :=
  match pullRecursive fetch fuel workflowID pullInit with
  | (st, none) => Except.ok st
  | (_, some e) => Except.error e

/-- The state extension performed by a successful fetch of `workflowID`. -/
def pullStep (workflowID : String) (wf : Workflow) (st : PullState) : PullState :=
  { st with
    calls := st.calls ++ [workflowID]
    pulled := st.pulled ++ [(workflowID, wf)]
    workflows := st.workflows ++
      [(workflowID,
        ⟨wf.id, wf.name, sanitizeFilename wf.name ++ ".json", wf.active⟩)]
    dependencies :=
      if extractSubWorkflowIDs wf.nodes ≠ [] then
        st.dependencies ++ [(workflowID, extractSubWorkflowIDs wf.nodes)]
      else st.dependencies }

lemma pullRecursive_hit (fetch : String → Except String Workflow) (fuel : Nat)
    (id : String) (st : PullState) (h : (st.pulled.lookup id).isSome = true) :
    pullRecursive fetch (fuel + 1) id st = (st, none) := by
  unfold pullRecursive
  rw [if_pos h]

lemma pullRecursive_err (fetch : String → Except String Workflow) (fuel : Nat)
    (id : String) (st : PullState) (e : String)
    (h : (st.pulled.lookup id).isSome = false) (hf : fetch id = Except.error e) :
    pullRecursive fetch (fuel + 1) id st
      = ({ st with calls := st.calls ++ [id] },
         some ("failed to get workflow " ++ id ++ ": " ++ e)) := by
  unfold pullRecursive
  rw [if_neg (by simp [h]), hf]

lemma pullRecursive_ok (fetch : String → Except String Workflow) (fuel : Nat)
    (id : String) (st : PullState) (wf : Workflow)
    (h : (st.pulled.lookup id).isSome = false) (hf : fetch id = Except.ok wf) :
    pullRecursive fetch (fuel + 1) id st
      = (pullSubs fetch fuel (extractSubWorkflowIDs wf.nodes) (pullStep id wf st),
         none) := by
  unfold pullRecursive
  rw [if_neg (by simp [h]), hf]
  rfl

lemma pullSubs_nil (fetch : String → Except String Workflow) (fuel : Nat)
    (st : PullState) : pullSubs fetch fuel [] st = st := by
  unfold pullSubs
  rfl

lemma pullSubs_cons_ok {fetch : String → Except String Workflow} {fuel : Nat}
    {subID : String} {st st2 : PullState} (rest : List String)
    (hres : pullRecursive fetch fuel subID st = (st2, none)) :
    pullSubs fetch fuel (subID :: rest) st = pullSubs fetch fuel rest st2 := by
  rw [pullSubs.eq_2, hres]

lemma pullSubs_cons_err {fetch : String → Except String Workflow} {fuel : Nat}
    {subID : String} {st st2 : PullState} {e : String} (rest : List String)
    (hres : pullRecursive fetch fuel subID st = (st2, some e)) :
    pullSubs fetch fuel (subID :: rest) st
      = pullSubs fetch fuel rest
          { st2 with warnings := st2.warnings ++
              ["Warning: could not pull sub-workflow " ++ subID ++ ": " ++ e] } := by
  rw [pullSubs.eq_2, hres]

lemma pullSubs_pulled_mono_of (fetch : String → Except String Workflow) (fuel : Nat)
    (hP : ∀ id st, ∃ ext, (pullRecursive fetch fuel id st).1.pulled = st.pulled ++ ext) :
    ∀ (l : List String) (st : PullState),
      ∃ ext, (pullSubs fetch fuel l st).pulled = st.pulled ++ ext := by
  intro l
  induction l with
  | nil =>
    intro st
    rw [pullSubs_nil]
    exact ⟨[], by simp⟩
  | cons s rest ih =>
    intro st
    rcases hres : pullRecursive fetch fuel s st with ⟨st2, err⟩
    obtain ⟨e1, he1⟩ := hP s st
    rw [hres] at he1
    cases err with
    | none =>
      rw [pullSubs_cons_ok rest hres]
      obtain ⟨e2, he2⟩ := ih st2
      exact ⟨e1 ++ e2, by rw [he2]; dsimp only at he1 ⊢; rw [he1, List.append_assoc]⟩
    | some e =>
      rw [pullSubs_cons_err rest hres]
      obtain ⟨e2, he2⟩ := ih { st2 with warnings := st2.warnings ++
        ["Warning: could not pull sub-workflow " ++ s ++ ": " ++ e] }
      refine ⟨e1 ++ e2, ?_⟩
      rw [he2]
      dsimp only at he1 ⊢
      rw [he1, List.append_assoc]

lemma pullRecursive_pulled_mono (fetch : String → Except String Workflow) :
    ∀ (fuel : Nat) (id : String) (st : PullState),
      ∃ ext, (pullRecursive fetch fuel id st).1.pulled = st.pulled ++ ext := by
  intro fuel
  induction fuel with
  | zero =>
    intro id st
    exact ⟨[], by simp [pullRecursive]⟩
  | succ f ih =>
    intro id st
    by_cases h : (st.pulled.lookup id).isSome = true
    · rw [pullRecursive_hit fetch f id st h]
      exact ⟨[], by simp⟩
    · have h' : (st.pulled.lookup id).isSome = false := Bool.eq_false_iff.mpr h
      cases hf : fetch id with
      | error e =>
        rw [pullRecursive_err fetch f id st e h' hf]
        exact ⟨[], by simp⟩
      | ok wf =>
        rw [pullRecursive_ok fetch f id st wf h' hf]
        obtain ⟨e2, he2⟩ := pullSubs_pulled_mono_of fetch f ih
          (extractSubWorkflowIDs wf.nodes) (pullStep id wf st)
        refine ⟨[(id, wf)] ++ e2, ?_⟩
        dsimp only
        rw [he2]
        dsimp only [pullStep]
        rw [List.append_assoc]

/-- Invariant: every recorded workflow was fetched successfully, and the
manifest's workflow map has exactly the pulled keys. -/
def Vst (fetch : String → Except String Workflow) (st : PullState) : Prop :=
  (∀ a ∈ st.pulled.map Prod.fst, ∃ wf, fetch a = Except.ok wf) ∧
  st.workflows.map Prod.fst = st.pulled.map Prod.fst

lemma pullSubs_V_of (fetch : String → Except String Workflow) (fuel : Nat)
    (hP : ∀ id st st2 err, Vst fetch st →
      pullRecursive fetch fuel id st = (st2, err) → Vst fetch st2) :
    ∀ (l : List String) (st : PullState), Vst fetch st →
      Vst fetch (pullSubs fetch fuel l st) := by
  intro l
  induction l with
  | nil =>
    intro st h
    rw [pullSubs_nil]
    exact h
  | cons s rest ih =>
    intro st h
    rcases hres : pullRecursive fetch fuel s st with ⟨st2, err⟩
    have h2 := hP s st st2 err h hres
    cases err with
    | none =>
      rw [pullSubs_cons_ok rest hres]
      exact ih st2 h2
    | some e =>
      rw [pullSubs_cons_err rest hres]
      exact ih _ ⟨h2.1, h2.2⟩

lemma pullRecursive_V (fetch : String → Except String Workflow) :
    ∀ (fuel : Nat) (id : String) (st st2 : PullState) (err : Option String),
      Vst fetch st → pullRecursive fetch fuel id st = (st2, err) →
      Vst fetch st2 := by
  intro fuel
  induction fuel with
  | zero =>
    intro id st st2 err h heq
    simp only [pullRecursive, Prod.mk.injEq] at heq
    rw [← heq.1]
    exact h
  | succ f ih =>
    intro id st st2 err h heq
    by_cases hh : (st.pulled.lookup id).isSome = true
    · rw [pullRecursive_hit fetch f id st hh] at heq
      cases heq
      exact h
    · have h' : (st.pulled.lookup id).isSome = false := Bool.eq_false_iff.mpr hh
      cases hf : fetch id with
      | error e =>
        rw [pullRecursive_err fetch f id st e h' hf] at heq
        cases heq
        exact ⟨h.1, h.2⟩
      | ok wf =>
        rw [pullRecursive_ok fetch f id st wf h' hf] at heq
        cases heq
        apply pullSubs_V_of fetch f ih
        constructor
        · intro a ha
          dsimp only [pullStep] at ha
          rw [List.map_append] at ha
          rcases List.mem_append.mp ha with hold | hid
          · exact h.1 a hold
          · simp at hid
            subst hid
            exact ⟨wf, hf⟩
        · dsimp only [pullStep]
          rw [List.map_append, List.map_append, h.2]
          simp

/-- A workflow whose nodes reference `refs` through direct `workflowId`
execute-workflow nodes. -/
def wfWithRefs (name : String) (refs : List String) : Workflow :=
  ⟨name, name, true,
   refs.map (fun r =>
     [("type", JValue.jstr "n8n-nodes-base.executeWorkflow"),
      ("parameters", JValue.jobj [("workflowId", JValue.jstr r)])])⟩

/-- Collaborator for the partial-failure scenario: `A` references `B` and
`C`, `B` references nothing, and fetching `C` (or anything else) fails. -/
def fetchABC : String → Except String Workflow := fun id =>
  if id = "A" then Except.ok (wfWithRefs "A" ["B", "C"])
  else if id = "B" then Except.ok (wfWithRefs "B" [])
  else Except.error "not found"

/-- C2: during a recursive pull, (1) a failing root fetch fails the whole
pull with the wrapped fetch error and no result; (2) a succeeding root fetch
always yields a result, whatever happens below the root; (3) an identifier
whose fetch fails is recorded neither in the fetched set nor in the
manifest's workflow map; (4) in the concrete scenario where `A` references
`B` and `C` and fetching `C` fails, the pull succeeds with fetched set
`{A, B}`, the dangling edge `A -> [B, C]` recorded, and the failure reported
as a warning. -/
theorem pull_error_handling :
    (∀ (fetch : String → Except String Workflow) (fuel : Nat) (root e : String),
      fetch root = Except.error e →
      pull fetch (fuel + 1) root
        = Except.error ("failed to get workflow " ++ root ++ ": " ++ e)) ∧
    (∀ (fetch : String → Except String Workflow) (fuel : Nat) (root : String)
      (wf : Workflow), fetch root = Except.ok wf →
      ∃ st, pull fetch (fuel + 1) root = Except.ok st) ∧
    (∀ (fetch : String → Except String Workflow) (fuel : Nat) (root : String)
      (st2 : PullState), pull fetch fuel root = Except.ok st2 →
      ∀ c e, fetch c = Except.error e →
        c ∉ st2.pulled.map Prod.fst ∧ c ∉ st2.workflows.map Prod.fst) ∧
    (∃ st, pull fetchABC 4 "A" = Except.ok st ∧
      st.pulled.map Prod.fst = ["A", "B"] ∧
      st.workflows.map Prod.fst = ["A", "B"] ∧
      st.dependencies = [("A", ["B", "C"])] ∧
      st.warnings
        = ["Warning: could not pull sub-workflow C: failed to get workflow C: not found"]) := by
  refine ⟨?_, ?_, ?_, ?_⟩
  · intro fetch fuel root e hf
    unfold pull
    rw [pullRecursive_err fetch fuel root pullInit e rfl hf]
  · intro fetch fuel root wf hf
    unfold pull
    rw [pullRecursive_ok fetch fuel root pullInit wf rfl hf]
    exact ⟨_, rfl⟩
  · intro fetch fuel root st2 hok c e hf
    have hV : Vst fetch st2 := by
      unfold pull at hok
      rcases hrec : pullRecursive fetch fuel root pullInit with ⟨stR, err⟩
      rw [hrec] at hok
      cases err with
      | none =>
        dsimp only at hok
        injection hok with h
        subst h
        exact pullRecursive_V fetch fuel root pullInit stR none ⟨by simp [pullInit], rfl⟩ hrec
      | some e2 =>
        exact Except.noConfusion hok
    constructor
    · intro hc
      obtain ⟨wf, hwf⟩ := hV.1 c hc
      rw [hf] at hwf
      exact Except.noConfusion hwf
    · intro hc
      rw [hV.2] at hc
      obtain ⟨wf, hwf⟩ := hV.1 c hc
      rw [hf] at hwf
      exact Except.noConfusion hwf
  · show ∃ st, pull fetchABC (3 + 1) "A" = Except.ok st ∧ _
    set st1 := pullStep "A" (wfWithRefs "A" ["B", "C"]) pullInit with hst1
    set stB := pullStep "B" (wfWithRefs "B" []) st1 with hstB
    have hB : pullRecursive fetchABC 3 "B" st1 = (stB, none) := by
      rw [show (3 : Nat) = 2 + 1 from rfl,
        pullRecursive_ok fetchABC 2 "B" st1 (wfWithRefs "B" []) rfl rfl]
      rw [show extractSubWorkflowIDs (wfWithRefs "B" []).nodes = [] from rfl,
        pullSubs_nil]
    have hC : pullRecursive fetchABC 3 "C" stB
        = ({ stB with calls := stB.calls ++ ["C"] },
           some ("failed to get workflow " ++ "C" ++ ": " ++ "not found")) := by
      rw [show (3 : Nat) = 2 + 1 from rfl]
      exact pullRecursive_err fetchABC 2 "C" stB "not found" rfl rfl
    unfold pull
    rw [pullRecursive_ok fetchABC 3 "A" pullInit (wfWithRefs "A" ["B", "C"]) rfl rfl]
    rw [show extractSubWorkflowIDs (wfWithRefs "A" ["B", "C"]).nodes = ["B", "C"] from rfl]
    rw [← hst1, pullSubs_cons_ok ["C"] hB, pullSubs_cons_err [] hC, pullSubs_nil]
    exact ⟨_, rfl, rfl, rfl, rfl, rfl⟩

/-- Witness for C2: a concrete failing root fetch and a concrete succeeding
root fetch. -/
theorem pull_error_handling_witness :
    pull (fun _ => Except.error "boom") (0 + 1) "X"
      = Except.error ("failed to get workflow " ++ "X" ++ ": " ++ "boom") ∧
    ∃ st, pull fetchABC (0 + 1) "A" = Except.ok st :=
  ⟨pull_error_handling.1 (fun _ => Except.error "boom") 0 "X" "boom" rfl,
   pull_error_handling.2.1 fetchABC 0 "A" (wfWithRefs "A" ["B", "C"]) rfl⟩

lemma lookup_isSome_iff_mem_keys {α : Type} (m : List (String × α)) (k : String) :
    (m.lookup k).isSome = true ↔ k ∈ m.map Prod.fst := by
  induction m with
  | nil => simp [List.lookup]
  | cons p rest ih =>
    obtain ⟨k0, v0⟩ := p
    by_cases h : k = k0
    · subst h
      simp [List.lookup]
    · simp [List.lookup, beq_false_of_ne h, ih, h]

lemma countP_ext {α : Type} (p q : α → Bool) :
    ∀ l : List α, (∀ a ∈ l, p a = q a) → l.countP p = l.countP q := by
  intro l
  induction l with
  | nil => intro _; rfl
  | cons a t ih =>
    intro h
    rw [List.countP_cons, List.countP_cons, h a (by simp),
      ih (fun b hb => h b (by simp [hb]))]

lemma countP_le_of_imp {α : Type} (p q : α → Bool) :
    ∀ l : List α, (∀ a ∈ l, p a = true → q a = true) →
      l.countP p ≤ l.countP q := by
  intro l
  induction l with
  | nil => intro _; exact le_refl _
  | cons a t ih =>
    intro h
    rw [List.countP_cons, List.countP_cons]
    have ht := ih (fun b hb => h b (by simp [hb]))
    by_cases hp : p a = true
    · rw [hp, h a (by simp) hp]
      exact Nat.add_le_add ht (le_refl _)
    · rw [Bool.eq_false_iff.mpr hp]
      exact Nat.add_le_add ht (by simp)

lemma countP_not_mem_append (P : List String) (x : String) :
    ∀ U : List String, U.Nodup → x ∈ U → x ∉ P →
      U.countP (fun v => decide (v ∉ P ++ [x])) + 1
        = U.countP (fun v => decide (v ∉ P)) := by
  intro U
  induction U with
  | nil => intro _ hx _; cases hx
  | cons a U' ih =>
    intro hU hx hxP
    rw [List.countP_cons, List.countP_cons]
    rcases List.mem_cons.mp hx with rfl | hxU'
    · have hnotin : x ∉ U' := (List.nodup_cons.mp hU).1
      have e1 : decide (x ∉ P ++ [x]) = false := by simp
      have e2 : decide (x ∉ P) = true := by simp [hxP]
      have e3 : U'.countP (fun v => decide (v ∉ P ++ [x]))
          = U'.countP (fun v => decide (v ∉ P)) := by
        apply countP_ext
        intro b hb
        have hba : b ≠ x := fun h => hnotin (h ▸ hb)
        exact decide_eq_decide.mpr (by simp [List.mem_append, hba])
      rw [e1, e2, e3]
      simp
    · have hax : a ≠ x := fun h => (List.nodup_cons.mp hU).1 (h ▸ hxU')
      have e : decide (a ∉ P ++ [x]) = decide (a ∉ P) :=
        decide_eq_decide.mpr (by simp [List.mem_append, hax])
      rw [e]
      have := ih (List.nodup_cons.mp hU).2 hxU' hxP
      omega

/-- Invariant: the call trace has no duplicates and matches the pulled keys
exactly (each identifier is fetched exactly once, namely when it is first
visited). -/
def Nst (st : PullState) : Prop :=
  (∀ x, x ∈ st.calls ↔ x ∈ st.pulled.map Prod.fst) ∧ st.calls.Nodup

lemma pullSubs_N_of (fetch : String → Except String Workflow) (U : List String)
    (fuel : Nat)
    (hP : ∀ id st st2 err, id ∈ U → Nst st →
      pullRecursive fetch fuel id st = (st2, err) → Nst st2) :
    ∀ (l : List String) (st : PullState), (∀ b ∈ l, b ∈ U) → Nst st →
      Nst (pullSubs fetch fuel l st) := by
  intro l
  induction l with
  | nil =>
    intro st _ h
    rw [pullSubs_nil]
    exact h
  | cons s rest ih =>
    intro st hl h
    rcases hres : pullRecursive fetch fuel s st with ⟨st2, err⟩
    have h2 := hP s st st2 err (hl s (by simp)) h hres
    cases err with
    | none =>
      rw [pullSubs_cons_ok rest hres]
      exact ih st2 (fun b hb => hl b (by simp [hb])) h2
    | some e =>
      rw [pullSubs_cons_err rest hres]
      exact ih _ (fun b hb => hl b (by simp [hb])) ⟨h2.1, h2.2⟩

lemma pullRecursive_N (fetch : String → Except String Workflow) (U : List String)
    (hok : ∀ a ∈ U, ∃ wf, fetch a = Except.ok wf)
    (hclosed : ∀ a ∈ U, ∀ wf, fetch a = Except.ok wf →
      ∀ b ∈ extractSubWorkflowIDs wf.nodes, b ∈ U) :
    ∀ (fuel : Nat) (id : String) (st st2 : PullState) (err : Option String),
      id ∈ U → Nst st → pullRecursive fetch fuel id st = (st2, err) → Nst st2 := by
  intro fuel
  induction fuel with
  | zero =>
    intro id st st2 err _ h heq
    simp only [pullRecursive, Prod.mk.injEq] at heq
    rw [← heq.1]
    exact h
  | succ f ih =>
    intro id st st2 err hid h heq
    by_cases hh : (st.pulled.lookup id).isSome = true
    · rw [pullRecursive_hit fetch f id st hh] at heq
      cases heq
      exact h
    · have h' : (st.pulled.lookup id).isSome = false := Bool.eq_false_iff.mpr hh
      have hidkeys : id ∉ st.pulled.map Prod.fst := by
        rw [← lookup_isSome_iff_mem_keys]
        simp [h']
      obtain ⟨wf, hwf⟩ := hok id hid
      rw [pullRecursive_ok fetch f id st wf h' hwf] at heq
      cases heq
      apply pullSubs_N_of fetch U f
        (fun id2 stx st2x errx => ih id2 stx st2x errx)
        _ _ (hclosed id hid wf hwf)
      constructor
      · intro x
        dsimp only [pullStep]
        rw [List.map_append, List.mem_append, List.mem_append]
        simp only [List.map_cons, List.map_nil]
        rw [h.1 x]
      · dsimp only [pullStep]
        rw [List.nodup_append]
        refine ⟨h.2, List.nodup_singleton id, ?_⟩
        intro a ha hb
        simp at hb
        subst hb
        exact hidkeys ((h.1 a).mp ha)

/-- Fuel an invocation can still need: the number of identifiers of the
closed universe `U` not yet pulled, plus one. -/
def pullBound (U : List String) (st : PullState) : Nat :=
  U.countP (fun v => decide (v ∉ st.pulled.map Prod.fst)) + 1

lemma pullBound_le_of_ext (U : List String) (st st2 : PullState)
    (hext : ∃ ext, st2.pulled = st.pulled ++ ext) :
    pullBound U st2 ≤ pullBound U st := by
  obtain ⟨ext, hext⟩ := hext
  unfold pullBound
  have hkeys : st2.pulled.map Prod.fst
      = st.pulled.map Prod.fst ++ ext.map Prod.fst := by
    rw [hext, List.map_append]
  rw [hkeys]
  have := countP_le_of_imp
    (fun v => decide (v ∉ st.pulled.map Prod.fst ++ ext.map Prod.fst))
    (fun v => decide (v ∉ st.pulled.map Prod.fst)) U
    (fun a _ hp => by
      rw [decide_eq_true_iff] at hp
      rw [decide_eq_true_iff]
      intro hmem
      exact hp (List.mem_append.mpr (Or.inl hmem)))
  omega

lemma pullBound_step (U : List String) (st : PullState) (id : String)
    (wf : Workflow) (hU : U.Nodup) (hid : id ∈ U)
    (hnot : id ∉ st.pulled.map Prod.fst) :
    pullBound U (pullStep id wf st) + 1 = pullBound U st := by
  unfold pullBound
  have hkeys : (pullStep id wf st).pulled.map Prod.fst
      = st.pulled.map Prod.fst ++ [id] := by
    dsimp only [pullStep]
    simp
  rw [hkeys]
  have := countP_not_mem_append (st.pulled.map Prod.fst) id U hU hid hnot
  omega

lemma pullSubs_stab_of (fetch : String → Except String Workflow) (U : List String)
    (f g : Nat)
    (hrec : ∀ id st, id ∈ U → pullBound U st ≤ f → pullBound U st ≤ g →
      pullRecursive fetch f id st = pullRecursive fetch g id st) :
    ∀ (l : List String) (st : PullState), (∀ b ∈ l, b ∈ U) →
      pullBound U st ≤ f → pullBound U st ≤ g →
      pullSubs fetch f l st = pullSubs fetch g l st := by
  intro l
  induction l with
  | nil =>
    intro st _ _ _
    rw [pullSubs_nil, pullSubs_nil]
  | cons s rest ih =>
    intro st hl hf hg
    have heq := hrec s st (hl s (by simp)) hf hg
    rcases hres : pullRecursive fetch f s st with ⟨st2, err⟩
    have hres2 : pullRecursive fetch g s st = (st2, err) := by rw [← heq, hres]
    have hb2 : pullBound U st2 ≤ pullBound U st := by
      apply pullBound_le_of_ext
      obtain ⟨ext, hext⟩ := pullRecursive_pulled_mono fetch f s st
      rw [hres] at hext
      exact ⟨ext, hext⟩
    cases err with
    | none =>
      rw [pullSubs_cons_ok rest hres, pullSubs_cons_ok rest hres2]
      exact ih st2 (fun b hb => hl b (by simp [hb]))
        (le_trans hb2 hf) (le_trans hb2 hg)
    | some e =>
      rw [pullSubs_cons_err rest hres, pullSubs_cons_err rest hres2]
      exact ih _ (fun b hb => hl b (by simp [hb]))
        (le_trans hb2 hf) (le_trans hb2 hg)

lemma pullRecursive_stab (fetch : String → Except String Workflow)
    (U : List String) (hU : U.Nodup)
    (hok : ∀ a ∈ U, ∃ wf, fetch a = Except.ok wf)
    (hclosed : ∀ a ∈ U, ∀ wf, fetch a = Except.ok wf →
      ∀ b ∈ extractSubWorkflowIDs wf.nodes, b ∈ U) :
    ∀ (f g : Nat) (id : String) (st : PullState), id ∈ U →
      pullBound U st ≤ f → pullBound U st ≤ g →
      pullRecursive fetch f id st = pullRecursive fetch g id st := by
  intro f
  induction f with
  | zero =>
    intro g id st _ hf _
    exact absurd hf (by unfold pullBound; omega)
  | succ f' ih =>
    intro g id st hid hf hg
    rcases g with _ | g'
    · exact absurd hg (by unfold pullBound; omega)
    by_cases hh : (st.pulled.lookup id).isSome = true
    · rw [pullRecursive_hit fetch f' id st hh, pullRecursive_hit fetch g' id st hh]
    · have h' : (st.pulled.lookup id).isSome = false := Bool.eq_false_iff.mpr hh
      have hidkeys : id ∉ st.pulled.map Prod.fst := by
        rw [← lookup_isSome_iff_mem_keys]
        simp [h']
      obtain ⟨wf, hwf⟩ := hok id hid
      rw [pullRecursive_ok fetch f' id st wf h' hwf,
        pullRecursive_ok fetch g' id st wf h' hwf]
      have hb1 := pullBound_step U st id wf hU hid hidkeys
      have hsubs := pullSubs_stab_of fetch U f' g'
        (fun id2 st2 h1 h2 h3 => ih g' id2 st2 h1 h2 h3)
        (extractSubWorkflowIDs wf.nodes) (pullStep id wf st)
        (hclosed id hid wf hwf) (by omega) (by omega)
      rw [hsubs]

/-- Collaborator for the cycle scenario: `A` references `B` and `B`
references `A`. -/
def fetchAB : String → Except String Workflow := fun id =>
  if id = "A" then Except.ok (wfWithRefs "A" ["B"])
  else if id = "B" then Except.ok (wfWithRefs "B" ["A"])
  else Except.error "not found"

/-- C3: over any finite closed reference universe `U` whose fetches all
succeed, (1) the pull result is independent of the fuel once the fuel covers
`U` — the traversal terminates; (2) a successful pull issues no duplicate
fetch call, and calls exactly the pulled identifiers; (3) visiting an
identifier already in the pulled set is a no-op; (4) for the two-cycle
`A <-> B`, `pull A` terminates with fetched set exactly `{A, B}`, each
fetched exactly once, (5) at every sufficient fuel. -/
theorem pull_terminates_fetches_once (fetch : String → Except String Workflow)
    (U : List String) (root : String) (hU : U.Nodup) (hroot : root ∈ U)
    (hok : ∀ a ∈ U, ∃ wf, fetch a = Except.ok wf)
    (hclosed : ∀ a ∈ U, ∀ wf, fetch a = Except.ok wf →
      ∀ b ∈ extractSubWorkflowIDs wf.nodes, b ∈ U) :
    (∀ fuel, U.length + 1 ≤ fuel →
      pull fetch fuel root = pull fetch (U.length + 1) root) ∧
    (∀ fuel st2, pull fetch fuel root = Except.ok st2 →
      st2.calls.Nodup ∧ ∀ x, x ∈ st2.calls ↔ x ∈ st2.pulled.map Prod.fst) ∧
    (∀ (g : String → Except String Workflow) (fuel : Nat) (id : String)
      (st : PullState), (st.pulled.lookup id).isSome = true →
      pullRecursive g (fuel + 1) id st = (st, none)) ∧
    (∃ st, pull fetchAB 3 "A" = Except.ok st ∧
      st.pulled.map Prod.fst = ["A", "B"] ∧ st.calls = ["A", "B"]) ∧
    (∀ fuel, 3 ≤ fuel → pull fetchAB fuel "A" = pull fetchAB 3 "A") := by
  have hinitBound : ∀ (V : List String), pullBound V pullInit = V.length + 1 := by
    intro V
    unfold pullBound
    have : V.countP (fun v => decide (v ∉ pullInit.pulled.map Prod.fst))
        = V.length := by
      apply List.countP_eq_length.mpr
      intro a _
      simp [pullInit]
    omega
  have hokAB : ∀ a ∈ ["A", "B"], ∃ wf, fetchAB a = Except.ok wf := by
    intro a ha
    fin_cases ha <;> exact ⟨_, rfl⟩
  have hclosedAB : ∀ a ∈ ["A", "B"], ∀ wf, fetchAB a = Except.ok wf →
      ∀ b ∈ extractSubWorkflowIDs wf.nodes, b ∈ ["A", "B"] := by
    intro a ha wf hwf b hb
    fin_cases ha
    · rw [show fetchAB "A" = Except.ok (wfWithRefs "A" ["B"]) from rfl] at hwf
      injection hwf with h
      subst h
      rw [show extractSubWorkflowIDs (wfWithRefs "A" ["B"]).nodes = ["B"] from rfl] at hb
      simp at hb
      subst hb
      simp
    · rw [show fetchAB "B" = Except.ok (wfWithRefs "B" ["A"]) from rfl] at hwf
      injection hwf with h
      subst h
      rw [show extractSubWorkflowIDs (wfWithRefs "B" ["A"]).nodes = ["A"] from rfl] at hb
      simp at hb
      subst hb
      simp
  refine ⟨?_, ?_, ?_, ?_, ?_⟩
  · intro fuel hfuel
    unfold pull
    rw [pullRecursive_stab fetch U hU hok hclosed fuel (U.length + 1) root
      pullInit hroot (by rw [hinitBound U]; omega) (by rw [hinitBound U])]
  · intro fuel st2 hpull
    have hN : Nst st2 := by
      unfold pull at hpull
      rcases hrec : pullRecursive fetch fuel root pullInit with ⟨stR, err⟩
      rw [hrec] at hpull
      cases err with
      | none =>
        dsimp only at hpull
        injection hpull with h
        subst h
        exact pullRecursive_N fetch U hok hclosed fuel root pullInit stR none
          hroot ⟨by simp [pullInit], List.nodup_nil⟩ hrec
      | some e2 =>
        exact Except.noConfusion hpull
    exact ⟨hN.2, hN.1⟩
  · intro g fuel id st h
    exact pullRecursive_hit g fuel id st h
  · set st1 := pullStep "A" (wfWithRefs "A" ["B"]) pullInit with hst1
    set stB := pullStep "B" (wfWithRefs "B" ["A"]) st1 with hstB
    have hA2 : pullRecursive fetchAB 1 "A" stB = (stB, none) := by
      rw [show (1 : Nat) = 0 + 1 from rfl]
      exact pullRecursive_hit fetchAB 0 "A" stB rfl
    have hB : pullRecursive fetchAB 2 "B" st1 = (stB, none) := by
      rw [show (2 : Nat) = 1 + 1 from rfl,
        pullRecursive_ok fetchAB 1 "B" st1 (wfWithRefs "B" ["A"]) rfl rfl]
      rw [show extractSubWorkflowIDs (wfWithRefs "B" ["A"]).nodes = ["A"] from rfl]
      rw [← hstB, pullSubs_cons_ok [] hA2, pullSubs_nil]
    unfold pull
    rw [show (3 : Nat) = 2 + 1 from rfl,
      pullRecursive_ok fetchAB 2 "A" pullInit (wfWithRefs "A" ["B"]) rfl rfl]
    rw [show extractSubWorkflowIDs (wfWithRefs "A" ["B"]).nodes = ["B"] from rfl]
    rw [← hst1, pullSubs_cons_ok [] hB, pullSubs_nil]
    exact ⟨stB, rfl, rfl, rfl⟩
  · intro fuel hfuel
    unfold pull
    rw [pullRecursive_stab fetchAB ["A", "B"] (by decide) hokAB hclosedAB fuel 3
      "A" pullInit (by decide) (by rw [hinitBound]; simp; omega)
      (by rw [hinitBound]; decide)]

/-- Witness for C3 at the concrete cycle collaborator `fetchAB` with
universe `{A, B}`. -/
theorem pull_terminates_fetches_once_witness :
    (∀ fuel, (["A", "B"] : List String).length + 1 ≤ fuel →
      pull fetchAB fuel "A" = pull fetchAB ((["A", "B"] : List String).length + 1) "A") ∧
    (∃ st, pull fetchAB 3 "A" = Except.ok st ∧
      st.pulled.map Prod.fst = ["A", "B"] ∧ st.calls = ["A", "B"]) := by
  have h := pull_terminates_fetches_once fetchAB ["A", "B"] "A" (by decide)
    (by decide)
    (by intro a ha; fin_cases ha <;> exact ⟨_, rfl⟩)
    (by
      intro a ha wf hwf b hb
      fin_cases ha
      · rw [show fetchAB "A" = Except.ok (wfWithRefs "A" ["B"]) from rfl] at hwf
        injection hwf with h2
        subst h2
        rw [show extractSubWorkflowIDs (wfWithRefs "A" ["B"]).nodes = ["B"] from rfl] at hb
        simp at hb
        subst hb
        simp
      · rw [show fetchAB "B" = Except.ok (wfWithRefs "B" ["A"]) from rfl] at hwf
        injection hwf with h2
        subst h2
        rw [show extractSubWorkflowIDs (wfWithRefs "B" ["A"]).nodes = ["A"] from rfl] at hb
        simp at hb
        subst hb
        simp)
  exact ⟨h.1, h.2.2.2.1⟩

/-! ## Push scheduler (`Manifest.GetPushOrder`, utils.go lines 198-243) -/

/-- Processing one valid dependency edge `(dep, id)` of the build loop:
`dependedBy[dep] = append(dependedBy[dep], id)` and `inDegree[id]++`. -/
def addEdge (st : List (String × List String) × List (String × Int))
    (e : String × String) :
    List (String × List String) × List (String × Int) :=
  (setA st.1 e.1 (getA st.1 e.1 [] ++ [e.2]),
   setA st.2 e.2 (getA st.2 e.2 0 + 1))

/-- The valid edges of the build loop, flattened in iteration order: for each
dependencies entry `(id, deps)` and each `dep` in `deps` that is a workflow
key, the edge `(dep, id)` — `dep` must precede `id`. -/
def validEdges (wfKeys : List String) (deps : List (String × List String)) :
    List (String × String) :=
  deps.flatMap (fun entry =>
    (entry.2.filter (fun dep => dep ∈ wfKeys)).map (fun dep => (dep, entry.1)))

/-- The `dependedBy`/`inDegree` build phase of `GetPushOrder`: `inDegree`
starts with every workflow key at zero, then every valid edge appends the
referrer to `dependedBy[dep]` and increments `inDegree[referrer]`. -/
def buildGraph (wfKeys : List String) (deps : List (String × List String)) :
    List (String × List String) × List (String × Int) :=
  (validEdges wfKeys deps).foldl addEdge
    ([], wfKeys.map (fun k => (k, (0 : Int))))

/-- One decrement of the inner loop over `dependedBy[id]`, queueing a
dependent whose in-degree reaches zero. -/
def pushStepK (acc : List (String × Int) × List String) (dependent : String) :
    List (String × Int) × List String :=
  let d := getA acc.1 dependent 0 - 1
  (setA acc.1 dependent d, if d = 0 then acc.2 ++ [dependent] else acc.2)

/-- Decrement the in-degree of every dependent of `id`, collecting the newly
ready ones in order. -/
def processNeighbors (dBy : List (String × List String)) (id : String)
    (deg : List (String × Int)) : List (String × Int) × List String :=
  (getA dBy id []).foldl pushStepK (deg, [])

/-- The Kahn loop of `GetPushOrder`: pop the queue front, append it to the
order, decrement its dependents and enqueue those that reach zero.  Fuel
bounds the iteration count; `getPushOrder` supplies more fuel than the loop
can consume, so the loop always drains its queue. -/
def kahnLoop (dBy : List (String × List String)) :
    Nat → List String → List (String × Int) → List String → List String
  | 0, _, _, order => order
  | _ + 1, [], _, order => order
  | fuel + 1, id :: rest, deg, order =>
    let pr := processNeighbors dBy id deg
    kahnLoop dBy fuel (rest ++ pr.2) pr.1 (order ++ [id])

/-- `Manifest.GetPushOrder`.  The association-list order of `workflows` and
`dependencies` renders one possible iteration order of the Go maps. -/
def Manifest.getPushOrder (m : Manifest) : List String :=
  let wfKeys := m.workflows.map Prod.fst
  let bg := buildGraph wfKeys m.dependencies
  let queue0 := (bg.2.filter (fun p => p.2 = 0)).map Prod.fst
  kahnLoop bg.1 (2 * bg.2.length + 1) queue0 bg.2 []

/-- The workflow-key list of a manifest, in iteration order. -/
def manifestWfKeys (m : Manifest) : List String := m.workflows.map Prod.fst

/-- The valid dependency edges of a manifest: `(b, a)` when `a` depends on
`b` and `b` is a workflow key. -/
def manifestEdges (m : Manifest) : List (String × String) :=
  validEdges (manifestWfKeys m) m.dependencies

/-- `a` must come after `b`: workflow `v`'s entry lists `u` as a dependency
that is also a workflow key. -/
abbrev DependsEdge (m : Manifest) (u v : String) : Prop :=
  (u, v) ∈ manifestEdges m

/-- `a` occurs strictly before `b` in the list `r`. -/
def Before (r : List String) (a b : String) : Prop :=
  ∃ r₁ r₂, r = r₁ ++ b :: r₂ ∧ a ∈ r₁

/-- Metadata stub for concrete manifests. -/
def mkMeta (s : String) : WorkflowMeta := ⟨s, s, s ++ ".json", false⟩

example :
    (Manifest.getPushOrder
      ⟨"A", [("A", mkMeta "A"), ("B", mkMeta "B"), ("C", mkMeta "C")],
       [("A", ["B"]), ("B", ["C"])]⟩) = ["C", "B", "A"] := by decide

example :
    (Manifest.getPushOrder
      ⟨"A", [("A", mkMeta "A"), ("B", mkMeta "B")],
       [("A", ["B"]), ("B", ["A"])]⟩) = [] := by decide

example :
    (Manifest.getPushOrder
      ⟨"B", [("B", mkMeta "B")], [("A", ["B"])]⟩) = ["B", "A"] := by decide

lemma getA_setA_same {α : Type} (m : List (String × α)) (k : String) (v d : α) :
    getA (setA m k v) k d = v := by
  unfold getA
  rw [lookup_setA_self]

lemma getA_setA_ne {α : Type} (m : List (String × α)) {k k' : String} (v d : α)
    (h : k' ≠ k) : getA (setA m k v) k' d = getA m k' d := by
  unfold getA
  rw [lookup_setA_of_ne _ _ h]

lemma setA_keys_of_mem {α : Type} {m : List (String × α)} {k : String} (v : α)
    (h : k ∈ m.map Prod.fst) : (setA m k v).map Prod.fst = m.map Prod.fst := by
  induction m with
  | nil => simp at h
  | cons p rest ih =>
    obtain ⟨k0, v0⟩ := p
    unfold setA
    by_cases hk : k0 = k
    · rw [if_pos hk]
      simp [hk]
    · rw [if_neg hk]
      simp only [List.map_cons, List.mem_cons] at h
      rcases h with h | h
      · exact absurd h.symm hk
      · simp only [List.map_cons]
        rw [ih h]

lemma setA_keys_of_not_mem {α : Type} {m : List (String × α)} {k : String} (v : α)
    (h : k ∉ m.map Prod.fst) :
    (setA m k v).map Prod.fst = m.map Prod.fst ++ [k] := by
  induction m with
  | nil => simp [setA]
  | cons p rest ih =>
    obtain ⟨k0, v0⟩ := p
    unfold setA
    simp only [List.map_cons, List.mem_cons] at h
    push_neg at h
    rw [if_neg (fun he => h.1 he.symm)]
    simp only [List.map_cons, List.cons_append, List.cons.injEq, true_and]
    exact ih h.2

lemma setA_keys_sup {α : Type} (m : List (String × α)) (k : String) (v : α) :
    ∀ x, x ∈ m.map Prod.fst ∨ x = k → x ∈ (setA m k v).map Prod.fst := by
  intro x hx
  by_cases h : k ∈ m.map Prod.fst
  · rw [setA_keys_of_mem v h]
    rcases hx with hx | rfl
    · exact hx
    · exact h
  · rw [setA_keys_of_not_mem v h]
    rcases hx with hx | rfl
    · exact List.mem_append.mpr (Or.inl hx)
    · exact List.mem_append.mpr (Or.inr (by simp))

lemma setA_keys_nodup {α : Type} {m : List (String × α)} (k : String) (v : α)
    (h : (m.map Prod.fst).Nodup) : ((setA m k v).map Prod.fst).Nodup := by
  by_cases hk : k ∈ m.map Prod.fst
  · rw [setA_keys_of_mem v hk]
    exact h
  · rw [setA_keys_of_not_mem v hk]
    rw [List.nodup_append]
    exact ⟨h, List.nodup_singleton k, by
      intro a ha hb
      simp at hb
      subst hb
      exact hk ha⟩

lemma foldl_addEdge_dBy (E : List (String × String)) :
    ∀ (st : List (String × List String) × List (String × Int)) (u : String),
      getA ((E.foldl addEdge st).1) u []
        = getA st.1 u [] ++ (E.filter (fun e => decide (e.1 = u))).map Prod.snd := by
  induction E with
  | nil => intro st u; simp
  | cons e E' ih =>
    intro st u
    rw [List.foldl_cons, ih, List.filter_cons]
    by_cases h : e.1 = u
    · rw [if_pos (by simp [h])]
      unfold addEdge
      dsimp only
      rw [← h, getA_setA_same]
      simp [List.append_assoc]
    · rw [if_neg (by simp [h])]
      unfold addEdge
      dsimp only
      rw [getA_setA_ne _ _ _ (fun he => h he.symm)]

lemma foldl_addEdge_deg (E : List (String × String)) :
    ∀ (st : List (String × List String) × List (String × Int)) (v : String),
      getA ((E.foldl addEdge st).2) v 0
        = getA st.2 v 0 + (E.countP (fun e => decide (e.2 = v)) : Int) := by
  induction E with
  | nil => intro st v; simp
  | cons e E' ih =>
    intro st v
    rw [List.foldl_cons, ih, List.countP_cons]
    unfold addEdge
    dsimp only
    by_cases h : e.2 = v
    · rw [← h, getA_setA_same]
      simp [h]
      ring
    · rw [getA_setA_ne _ _ _ (fun he => h he.symm)]
      simp [h]

lemma foldl_addEdge_keys (E : List (String × String)) :
    ∀ (st : List (String × List String) × List (String × Int)),
      (∀ x, x ∈ st.2.map Prod.fst → x ∈ ((E.foldl addEdge st).2).map Prod.fst) ∧
      (∀ e ∈ E, e.2 ∈ ((E.foldl addEdge st).2).map Prod.fst) ∧
      ((st.2.map Prod.fst).Nodup → (((E.foldl addEdge st).2).map Prod.fst).Nodup) := by
  induction E with
  | nil =>
    intro st
    exact ⟨fun x hx => hx, fun e he => absurd he (List.not_mem_nil e), fun h => h⟩
  | cons e E' ih =>
    intro st
    rw [List.foldl_cons]
    obtain ⟨ih1, ih2, ih3⟩ := ih (addEdge st e)
    have hstep : ∀ x, x ∈ st.2.map Prod.fst → x ∈ (addEdge st e).2.map Prod.fst := by
      intro x hx
      unfold addEdge
      exact setA_keys_sup _ _ _ x (Or.inl hx)
    refine ⟨fun x hx => ih1 x (hstep x hx), ?_, ?_⟩
    · intro e2 he2
      rcases List.mem_cons.mp he2 with rfl | he2'
      · apply ih1
        unfold addEdge
        exact setA_keys_sup _ _ _ e2.2 (Or.inr rfl)
      · exact ih2 e2 he2'
    · intro h
      apply ih3
      unfold addEdge
      exact setA_keys_nodup _ _ h

lemma foldl_addEdge_keys_eq (E : List (String × String)) :
    ∀ (st : List (String × List String) × List (String × Int)),
      (∀ e ∈ E, e.2 ∈ st.2.map Prod.fst) →
      ((E.foldl addEdge st).2).map Prod.fst = st.2.map Prod.fst := by
  induction E with
  | nil => intro st _; rfl
  | cons e E' ih =>
    intro st h
    rw [List.foldl_cons]
    have hkeys : (addEdge st e).2.map Prod.fst = st.2.map Prod.fst := by
      unfold addEdge
      exact setA_keys_of_mem _ (h e (by simp))
    rw [ih (addEdge st e) (by rw [hkeys]; exact fun e2 he2 => h e2 (by simp [he2]))]
    exact hkeys

lemma getA_init_zero (wfKeys : List String) (v : String) :
    getA (wfKeys.map (fun k => (k, (0 : Int)))) v 0 = 0 := by
  induction wfKeys with
  | nil => rfl
  | cons k rest ih =>
    simp only [List.map_cons]
    unfold getA List.lookup
    by_cases h : v = k
    · simp [h]
    · rw [beq_false_of_ne h]
      exact ih

lemma init_keys (wfKeys : List String) :
    ((wfKeys.map (fun k => (k, (0 : Int)))).map Prod.fst) = wfKeys := by
  induction wfKeys with
  | nil => rfl
  | cons k rest ih =>
    simp only [List.map_cons]
    rw [ih]

lemma countP_or_disjoint {α : Type} (p q : α → Bool) :
    ∀ l : List α, (∀ a ∈ l, ¬(p a = true ∧ q a = true)) →
      l.countP (fun a => p a || q a) = l.countP p + l.countP q := by
  intro l
  induction l with
  | nil => intro _; rfl
  | cons x l' ih =>
    intro h
    rw [List.countP_cons, List.countP_cons, List.countP_cons,
      ih (fun b hb => h b (by simp [hb]))]
    by_cases hpx : p x = true
    · have hqx : q x = false := by
        by_cases hq : q x = true
        · exact absurd ⟨hpx, hq⟩ (h x (by simp))
        · exact Bool.eq_false_iff.mpr hq
      rw [if_pos (by simp [hpx]), if_pos hpx, if_neg (by simp [hqx])]
      omega
    · have hpx' : p x = false := Bool.eq_false_iff.mpr hpx
      by_cases hqx : q x = true
      · rw [if_pos (by simp [hpx', hqx]), if_neg (by simp [hpx']), if_pos hqx]
        omega
      · have hqx' : q x = false := Bool.eq_false_iff.mpr hqx
        rw [if_neg (by simp [hpx', hqx']), if_neg (by simp [hpx']),
          if_neg (by simp [hqx'])]
        omega

lemma countP_eq_imp {α : Type} (p q : α → Bool) :
    ∀ l : List α, (∀ a ∈ l, p a = true → q a = true) → l.countP p = l.countP q →
      ∀ a ∈ l, q a = true → p a = true := by
  intro l
  induction l with
  | nil => intro _ _ a ha; cases ha
  | cons x l' ih =>
    intro himp heq a ha hqa
    have hle : l'.countP p ≤ l'.countP q :=
      countP_le_of_imp p q l' (fun b hb => himp b (by simp [hb]))
    rw [List.countP_cons, List.countP_cons] at heq
    by_cases hpx : p x = true
    · have hqx := himp x (by simp) hpx
      rw [if_pos hpx, if_pos hqx] at heq
      have heq' : l'.countP p = l'.countP q := by omega
      rcases List.mem_cons.mp ha with rfl | ha'
      · exact hpx
      · exact ih (fun b hb => himp b (by simp [hb])) heq' a ha' hqa
    · have hpx' : p x = false := Bool.eq_false_iff.mpr hpx
      by_cases hqx : q x = true
      · rw [if_neg (by simp [hpx']), if_pos hqx] at heq
        exact absurd heq (by omega)
      · have hqx' : q x = false := Bool.eq_false_iff.mpr hqx
        rw [if_neg (by simp [hpx']), if_neg (by simp [hqx'])] at heq
        have heq' : l'.countP p = l'.countP q := by omega
        rcases List.mem_cons.mp ha with rfl | ha'
        · exact absurd hqa (by simp [hqx'])
        · exact ih (fun b hb => himp b (by simp [hb])) heq' a ha' hqa

lemma countP_single_mem (s : String) :
    ∀ L : List String, L.Nodup → s ∈ L →
      L.countP (fun v => decide (v = s)) = 1 := by
  intro L
  induction L with
  | nil => intro _ h; cases h
  | cons a L' ih =>
    intro hnd hs
    rw [List.countP_cons]
    by_cases has : a = s
    · subst has
      rw [if_pos (by simp)]
      have h0 : L'.countP (fun v => decide (v = a)) = 0 := by
        rw [List.countP_eq_zero]
        intro b hb
        simp only [decide_eq_true_eq]
        intro hba
        exact (List.nodup_cons.mp hnd).1 (hba ▸ hb)
      omega
    · rw [if_neg (by simp [has])]
      apply ih (List.nodup_cons.mp hnd).2
      rcases List.mem_cons.mp hs with h | h
      · exact absurd h.symm has
      · exact h

lemma countP_mem_list (L : List String) (hL : L.Nodup) :
    ∀ S : List String, S.Nodup → (∀ y ∈ S, y ∈ L) →
      L.countP (fun v => decide (v ∈ S)) = S.length := by
  intro S
  induction S with
  | nil =>
    intro _ _
    rw [List.countP_eq_zero.mpr]
    · rfl
    · intro b _
      simp
  | cons s S' ih =>
    intro hS hsub
    have hsS' : s ∉ S' := (List.nodup_cons.mp hS).1
    have hext : L.countP (fun v => decide (v ∈ s :: S'))
        = L.countP (fun v => decide (v = s) || decide (v ∈ S')) := by
      apply countP_ext
      intro a _
      simp [List.mem_cons]
    rw [hext, countP_or_disjoint _ _ L (by
      intro a _ hand
      simp only [decide_eq_true_eq] at hand
      exact hsS' (hand.1 ▸ hand.2))]
    rw [countP_single_mem s L hL (hsub s (by simp)),
      ih (List.nodup_cons.mp hS).2 (fun y hy => hsub y (by simp [hy]))]
    simp only [List.length_cons]
    omega

lemma countP_add_not {α : Type} (p : α → Bool) :
    ∀ l : List α, l.countP p + l.countP (fun a => !(p a)) = l.length := by
  intro l
  induction l with
  | nil => rfl
  | cons x l' ih =>
    rw [List.countP_cons, List.countP_cons]
    by_cases hp : p x = true
    · rw [if_pos hp, if_neg (by simp [hp])]
      simp only [List.length_cons]
      omega
    · have hp' : p x = false := Bool.eq_false_iff.mpr hp
      rw [if_neg (by simp [hp']), if_pos (by simp [hp'])]
      simp only [List.length_cons]
      omega

lemma pushFold_spec (l : List String) :
    ∀ (deg : List (String × Int)) (acc : List String),
      (∀ v, getA ((l.foldl pushStepK (deg, acc)).1) v 0
          = getA deg v 0 - (l.count v : Int)) ∧
      (∀ y, y ∈ (l.foldl pushStepK (deg, acc)).2 ↔
        (y ∈ acc ∨ (1 ≤ getA deg y 0 ∧ getA deg y 0 ≤ (l.count y : Int)))) ∧
      ((acc.Nodup ∧ ∀ y ∈ acc, getA deg y 0 ≤ 0) →
        (l.foldl pushStepK (deg, acc)).2.Nodup) := by
  induction l with
  | nil =>
    intro deg acc
    refine ⟨fun v => by simp, fun y => ?_, fun h => h.1⟩
    simp only [List.foldl_nil, List.count_nil]
    constructor
    · exact Or.inl
    · rintro (h | ⟨h1, h2⟩)
      · exact h
      · exfalso
        simp only [Nat.cast_zero] at h2
        omega
  | cons d l' ih =>
    intro deg acc
    rw [List.foldl_cons]
    have hstep : pushStepK (deg, acc) d
        = (setA deg d (getA deg d 0 - 1),
           if getA deg d 0 - 1 = 0 then acc ++ [d] else acc) := rfl
    rw [hstep]
    obtain ⟨ih1, ih2, ih3⟩ := ih (setA deg d (getA deg d 0 - 1))
      (if getA deg d 0 - 1 = 0 then acc ++ [d] else acc)
    have hdeg1 : ∀ v, getA (setA deg d (getA deg d 0 - 1)) v 0
        = if v = d then getA deg d 0 - 1 else getA deg v 0 := by
      intro v
      by_cases hv : v = d
      · rw [if_pos hv, hv, getA_setA_same]
      · rw [if_neg hv, getA_setA_ne _ _ _ hv]
    refine ⟨?_, ?_, ?_⟩
    · intro v
      rw [ih1 v, hdeg1 v]
      by_cases hv : v = d
      · subst hv
        rw [if_pos rfl]
        have hcnt : ∀ z : String, ((z :: l').count z : Int)
            = (l'.count z : Int) + 1 := by
          intro z
          rw [List.count_cons]
          simp
        rw [hcnt]
        ring
      · have hcnt : (d :: l').count v = l'.count v := by
          rw [List.count_cons]
          simp [beq_false_of_ne (show d ≠ v from fun h => hv h.symm)]
        rw [if_neg hv, hcnt]
    · intro y
      rw [ih2 y]
      by_cases hy : y = d
      · subst hy
        have hc : (0 : Int) ≤ (l'.count y : Int) := Int.natCast_nonneg _
        have hcnt : ((y :: l').count y : Int) = (l'.count y : Int) + 1 := by
          rw [List.count_cons]
          simp
        have hacc1 : (y ∈ (if getA deg y 0 - 1 = 0 then acc ++ [y] else acc))
            ↔ (y ∈ acc ∨ getA deg y 0 = 1) := by
          by_cases hpush : getA deg y 0 - 1 = 0
          · rw [if_pos hpush]
            constructor
            · intro _
              right
              omega
            · intro _
              exact List.mem_append.mpr (Or.inr (by simp))
          · rw [if_neg hpush]
            constructor
            · exact Or.inl
            · rintro (h | h)
              · exact h
              · exact absurd (by omega : getA deg y 0 - 1 = 0) hpush
        rw [hacc1, hdeg1 y, if_pos rfl, hcnt]
        by_cases hmem : y ∈ acc
        · simp [hmem]
        · simp only [hmem, false_or]
          constructor
          · rintro (h | ⟨h1, h2⟩)
            · exact ⟨by omega, by omega⟩
            · exact ⟨by omega, by omega⟩
          · rintro ⟨h1, h2⟩
            by_cases hG : getA deg y 0 = 1
            · exact Or.inl hG
            · exact Or.inr ⟨by omega, by omega⟩
      · have hacc1 : (y ∈ (if getA deg d 0 - 1 = 0 then acc ++ [d] else acc))
            ↔ y ∈ acc := by
          split
          · constructor
            · intro h
              rcases List.mem_append.mp h with h | h
              · exact h
              · simp at h
                exact absurd h hy
            · intro h
              exact List.mem_append.mpr (Or.inl h)
          · exact Iff.rfl
        have hcnt : ((d :: l').count y : Int) = (l'.count y : Int) := by
          rw [List.count_cons]
          simp [beq_false_of_ne (show d ≠ y from fun h => hy h.symm)]
        rw [hacc1, hdeg1 y, if_neg hy, hcnt]
    · rintro ⟨hnd, hle⟩
      apply ih3
      constructor
      · by_cases hpush : getA deg d 0 - 1 = 0
        · rw [if_pos hpush, List.nodup_append]
          refine ⟨hnd, List.nodup_singleton d, ?_⟩
          intro a ha hb
          simp at hb
          subst hb
          have := hle a ha
          omega
        · rw [if_neg hpush]
          exact hnd
      · intro y hy
        rw [hdeg1 y]
        by_cases hyd : y = d
        · rw [if_pos hyd]
          subst hyd
          by_cases hpush : getA deg y 0 - 1 = 0
          · omega
          · rw [if_neg hpush] at hy
            have := hle y hy
            omega
        · rw [if_neg hyd]
          have hyacc : y ∈ acc := by
            by_cases hpush : getA deg d 0 - 1 = 0
            · rw [if_pos hpush] at hy
              rcases List.mem_append.mp hy with h | h
              · exact h
              · simp at h
                exact absurd h hyd
            · rw [if_neg hpush] at hy
              exact hy
          exact hle y hyacc

/-- Number of edges into `v` (with multiplicity), as an integer. -/
def inCnt (E : List (String × String)) (v : String) : Int :=
  (E.countP (fun e => decide (e.2 = v)) : Int)

/-- Number of edges into `v` whose source is in `o`. -/
def fromCnt (E : List (String × String)) (o : List String) (v : String) : Int :=
  (E.countP (fun e => decide (e.2 = v ∧ e.1 ∈ o)) : Int)

lemma fromCnt_le_inCnt (E : List (String × String)) (o : List String)
    (v : String) : fromCnt E o v ≤ inCnt E v := by
  unfold fromCnt inCnt
  have := countP_le_of_imp (fun e => decide (e.2 = v ∧ e.1 ∈ o))
    (fun e => decide (e.2 = v)) E (fun e _ he => by
      simp only [decide_eq_true_eq] at he ⊢
      exact he.1)
  exact_mod_cast this

lemma fromCnt_nil (E : List (String × String)) (v : String) :
    fromCnt E [] v = 0 := by
  unfold fromCnt
  rw [List.countP_eq_zero.mpr]
  · rfl
  · intro e _
    simp

lemma fromCnt_append_singleton (E : List (String × String)) (o : List String)
    (id v : String) (hid : id ∉ o) :
    fromCnt E (o ++ [id]) v
      = fromCnt E o v
        + (E.countP (fun e => decide (e.1 = id ∧ e.2 = v)) : Int) := by
  unfold fromCnt
  have hext : E.countP (fun e => decide (e.2 = v ∧ e.1 ∈ o ++ [id]))
      = E.countP (fun e =>
          decide (e.2 = v ∧ e.1 ∈ o) || decide (e.1 = id ∧ e.2 = v)) := by
    apply countP_ext
    intro e _
    have hiff : (e.2 = v ∧ e.1 ∈ o ++ [id])
        ↔ ((e.2 = v ∧ e.1 ∈ o) ∨ (e.1 = id ∧ e.2 = v)) := by
      constructor
      · rintro ⟨h2, h1⟩
        rcases List.mem_append.mp h1 with h | h
        · exact Or.inl ⟨h2, h⟩
        · simp at h
          exact Or.inr ⟨h, h2⟩
      · rintro (⟨h2, h1⟩ | ⟨h1, h2⟩)
        · exact ⟨h2, List.mem_append.mpr (Or.inl h1)⟩
        · exact ⟨h2, List.mem_append.mpr (Or.inr (by simp [h1]))⟩
    rw [decide_eq_decide.mpr hiff]
    exact Bool.decide_or _ _
  rw [hext, countP_or_disjoint _ _ E (by
    intro e _ hand
    simp only [decide_eq_true_eq] at hand
    exact hid (hand.2.1 ▸ hand.1.2))]
  push_cast
  ring

lemma all_sources_in_of_fromCnt_eq {E : List (String × String)}
    {o : List String} {v : String} (h : fromCnt E o v = inCnt E v) :
    ∀ e ∈ E, e.2 = v → e.1 ∈ o := by
  unfold fromCnt inCnt at h
  have hnat : E.countP (fun e => decide (e.2 = v ∧ e.1 ∈ o))
      = E.countP (fun e => decide (e.2 = v)) := by exact_mod_cast h
  have := countP_eq_imp (fun e => decide (e.2 = v ∧ e.1 ∈ o))
    (fun e => decide (e.2 = v)) E (fun e _ he => by
      simp only [decide_eq_true_eq] at he ⊢
      exact he.1) hnat
  intro e he h2
  have h3 := this e he (by simp [h2])
  simp only [decide_eq_true_eq] at h3
  exact h3.2

lemma exists_src_outside_of_ne {E : List (String × String)} {o : List String}
    {v : String} (h : fromCnt E o v ≠ inCnt E v) :
    ∃ u, (u, v) ∈ E ∧ u ∉ o := by
  by_contra hcon
  push_neg at hcon
  apply h
  unfold fromCnt inCnt
  congr 1
  apply countP_ext
  intro e he
  apply decide_eq_decide.mpr
  constructor
  · exact And.left
  · intro h2
    refine ⟨h2, hcon e.1 ?_⟩
    rw [show (e.1, v) = e from by rw [← h2]]
    exact he

lemma count_dByF (E : List (String × String)) (id y : String) :
    ((E.filter (fun e => decide (e.1 = id))).map Prod.snd).count y
      = E.countP (fun e => decide (e.1 = id ∧ e.2 = y)) := by
  rw [List.count_eq_countP, List.countP_map, List.countP_filter]
  apply countP_ext
  intro e _
  simp only [Function.comp_apply]
  rcases e with ⟨a, b⟩
  by_cases h1 : a = id <;> by_cases h2 : b = y <;>
    simp [h1, h2]

lemma mem_dByF {E : List (String × String)} {id y : String}
    (h : y ∈ (E.filter (fun e => decide (e.1 = id))).map Prod.snd) :
    (id, y) ∈ E := by
  rw [List.mem_map] at h
  obtain ⟨e, he, hsnd⟩ := h
  rw [List.mem_filter] at he
  have h1 : e.1 = id := by simpa using he.2
  rw [show (id, y) = e from by rw [← h1, ← hsnd]]
  exact he.1

lemma split_append_singleton {α : Type} :
    ∀ (o₁ o : List α) (o₂ : List α) (v x : α), o ++ [x] = o₁ ++ v :: o₂ →
      (o₁ = o ∧ v = x ∧ o₂ = []) ∨
      ∃ o₂', o = o₁ ++ v :: o₂' ∧ o₂ = o₂' ++ [x] := by
  intro o₁
  induction o₁ with
  | nil =>
    intro o o₂ v x h
    cases o with
    | nil =>
      simp only [List.nil_append] at h
      injection h with h1 h2
      exact Or.inl ⟨rfl, h1.symm, h2.symm⟩
    | cons a o' =>
      rw [List.cons_append] at h
      injection h with h1 h2
      refine Or.inr ⟨o', ?_, h2.symm⟩
      rw [List.nil_append, h1]
  | cons b o₁' ih =>
    intro o o₂ v x h
    cases o with
    | nil =>
      simp only [List.nil_append, List.cons_append] at h
      injection h with h1 h2
      cases o₁' <;> simp at h2
    | cons a o' =>
      rw [List.cons_append, List.cons_append] at h
      injection h with h1 h2
      rcases ih o' o₂ v x h2 with ⟨ho₁, hv, ho₂⟩ | ⟨o₂', ho, ho₂⟩
      · exact Or.inl ⟨by rw [h1, ho₁], hv, ho₂⟩
      · exact Or.inr ⟨o₂', by rw [List.cons_append, h1, ho], ho₂⟩

/-- Loop invariant of the Kahn loop: current in-degrees are the initial
in-degrees minus edges from emitted nodes, the emitted order and queue are
duplicate-free keys, queued nodes have all in-edges emitted, every emitted
node was emitted after all its in-edge sources, and workflow keys neither
emitted nor queued still have a missing in-edge source. -/
structure KInv (E : List (String × String)) (wfKeys : List String)
    (Kfull : List String) (q : List String) (deg : List (String × Int))
    (o : List String) : Prop where
  deg_val : ∀ v, getA deg v 0 = inCnt E v - fromCnt E o v
  nodup : (o ++ q).Nodup
  sub : ∀ v ∈ o ++ q, v ∈ Kfull
  q_zero : ∀ v ∈ q, fromCnt E o v = inCnt E v
  o_resp : ∀ u v, (u, v) ∈ E → ∀ o₁ o₂, o = o₁ ++ v :: o₂ → u ∈ o₁
  wf_pos : ∀ v ∈ wfKeys, v ∉ o → v ∉ q → fromCnt E o v ≠ inCnt E v

/-- Master lemma for the Kahn loop: starting from any state satisfying the
invariant, with fuel exceeding the loop's measure, the emitted order is
duplicate-free, contains only in-degree keys, respects every edge, and any
workflow key it misses still lacks an emitted in-edge source. -/
lemma kahn_master (E : List (String × String)) (wfKeys Kfull : List String)
    (dBy : List (String × List String))
    (hdBy : ∀ u, getA dBy u []
      = (E.filter (fun e => decide (e.1 = u))).map Prod.snd)
    (htgt : ∀ e ∈ E, e.2 ∈ Kfull)
    (hKnodup : Kfull.Nodup) :
    ∀ (fuel : Nat) (q : List String) (deg : List (String × Int))
      (o : List String),
      KInv E wfKeys Kfull q deg o →
      q.length + 2 * (Kfull.countP (fun v => decide (v ∉ o ∧ v ∉ q))) < fuel →
      (kahnLoop dBy fuel q deg o).Nodup ∧
      (∀ v ∈ kahnLoop dBy fuel q deg o, v ∈ Kfull) ∧
      (∀ u v, (u, v) ∈ E → ∀ r₁ r₂,
        kahnLoop dBy fuel q deg o = r₁ ++ v :: r₂ → u ∈ r₁) ∧
      (∀ v ∈ wfKeys, v ∉ kahnLoop dBy fuel q deg o →
        fromCnt E (kahnLoop dBy fuel q deg o) v ≠ inCnt E v) := by
  intro fuel
  induction fuel with
  | zero =>
    intro q deg o _ hm
    exact absurd hm (by omega)
  | succ f ih =>
    intro q deg o hinv hm
    rcases q with _ | ⟨id, rest⟩
    · rw [show kahnLoop dBy (f + 1) [] deg o = o from rfl]
      refine ⟨by simpa using hinv.nodup, fun v hv => hinv.sub v (by simp [hv]),
        fun u v he o₁ o₂ hsp => hinv.o_resp u v he o₁ o₂ hsp,
        fun v hv hvo => hinv.wf_pos v hv hvo (by simp)⟩
    · rw [show kahnLoop dBy (f + 1) (id :: rest) deg o
        = kahnLoop dBy f (rest ++ (processNeighbors dBy id deg).2)
            (processNeighbors dBy id deg).1 (o ++ [id]) from rfl]
      have hpr1 : ∀ v, getA (processNeighbors dBy id deg).1 v 0
          = getA deg v 0 - ((getA dBy id []).count v : Int) :=
        (pushFold_spec (getA dBy id []) deg []).1
      have hpr2 : ∀ y, y ∈ (processNeighbors dBy id deg).2 ↔
          (1 ≤ getA deg y 0 ∧
            getA deg y 0 ≤ ((getA dBy id []).count y : Int)) := by
        intro y
        have h := (pushFold_spec (getA dBy id []) deg []).2.1 y
        simpa only [List.not_mem_nil, false_or] using h
      have hprnd : (processNeighbors dBy id deg).2.Nodup :=
        (pushFold_spec (getA dBy id []) deg []).2.2
          ⟨List.nodup_nil, fun y hy => absurd hy (List.not_mem_nil y)⟩
      have hidK : id ∈ Kfull := hinv.sub id (by simp)
      have hido : id ∉ o := by
        have h := hinv.nodup
        rw [List.nodup_append] at h
        exact fun ho => h.2.2 ho (by simp)
      have hidq0 : fromCnt E o id = inCnt E id := hinv.q_zero id (by simp)
      have hcount : ∀ y, (getA dBy id []).count y
          = E.countP (fun e => decide (e.1 = id ∧ e.2 = y)) := by
        intro y
        rw [hdBy id]
        exact count_dByF E id y
      have hfc : ∀ v, fromCnt E (o ++ [id]) v
          = fromCnt E o v + ((getA dBy id []).count v : Int) := by
        intro v
        rw [fromCnt_append_singleton E o id v hido, hcount v]
      have hpryK : ∀ y ∈ (processNeighbors dBy id deg).2, y ∈ Kfull := by
        intro y hy
        have h2 := (hpr2 y).mp hy
        have hbig : (1 : Int) ≤ ((getA dBy id []).count y : Int) :=
          le_trans h2.1 h2.2
        have hypos : 0 < (getA dBy id []).count y := by exact_mod_cast hbig
        rw [hcount y] at hypos
        obtain ⟨e, he, hp⟩ := List.countP_pos.mp hypos
        simp only [decide_eq_true_eq] at hp
        exact hp.2 ▸ htgt e he
      have hpryno : ∀ y ∈ (processNeighbors dBy id deg).2,
          y ∉ o ∧ y ≠ id ∧ y ∉ rest := by
        intro y hy
        have h2 := (hpr2 y).mp hy
        refine ⟨?_, ?_, ?_⟩
        · intro hyo
          obtain ⟨o₁, o₂, hsp⟩ := List.append_of_mem hyo
          have hall : ∀ e ∈ E, e.2 = y → e.1 ∈ o := by
            intro e he h2e
            have hin := hinv.o_resp e.1 y
              (by rw [show (e.1, y) = e from by rw [← h2e]]; exact he) o₁ o₂ hsp
            rw [hsp]
            exact List.mem_append.mpr (Or.inl hin)
          have heq : fromCnt E o y = inCnt E y := by
            unfold fromCnt inCnt
            congr 1
            apply countP_ext
            intro e he
            apply decide_eq_decide.mpr
            exact ⟨And.left, fun h2e => ⟨h2e, hall e he h2e⟩⟩
          have hz : getA deg y 0 = 0 := by
            rw [hinv.deg_val y, heq]
            ring
          have h1 := h2.1
          omega
        · intro hyid
          have hz : getA deg id 0 = 0 := by
            rw [hinv.deg_val id, hidq0]
            ring
          have h1 := h2.1
          rw [hyid] at h1
          omega
        · intro hyr
          have hq0 := hinv.q_zero y (by simp [hyr])
          have hz : getA deg y 0 = 0 := by
            rw [hinv.deg_val y, hq0]
            ring
          have h1 := h2.1
          omega
      have hinv' : KInv E wfKeys Kfull
          (rest ++ (processNeighbors dBy id deg).2)
          (processNeighbors dBy id deg).1 (o ++ [id]) := by
        constructor
        · intro v
          rw [hpr1 v, hinv.deg_val v, hfc v]
          ring
        · have hrearr : ((o ++ [id]) ++ rest) = o ++ id :: rest := by simp
          rw [show ((o ++ [id]) ++ (rest ++ (processNeighbors dBy id deg).2))
              = ((o ++ [id]) ++ rest) ++ (processNeighbors dBy id deg).2 from by
            simp [List.append_assoc]]
          rw [List.nodup_append]
          refine ⟨by rw [hrearr]; exact hinv.nodup, hprnd, ?_⟩
          intro a ha hb
          obtain ⟨hano, hani, hanr⟩ := hpryno a hb
          rw [hrearr] at ha
          rcases List.mem_append.mp ha with h | h
          · exact hano h
          · rcases List.mem_cons.mp h with h | h
            · exact hani h
            · exact hanr h
        · intro v hv
          rcases List.mem_append.mp hv with h | h
          · rcases List.mem_append.mp h with h | h
            · exact hinv.sub v (by simp [h])
            · simp at h
              subst h
              exact hidK
          · rcases List.mem_append.mp h with h | h
            · exact hinv.sub v (by simp [h])
            · exact hpryK v h
        · intro v hv
          rcases List.mem_append.mp hv with h | h
          · have hold := hinv.q_zero v (by simp [h])
            have hcv : (getA dBy id []).count v = 0 := by
              by_contra hc
              have hpos : 0 < (getA dBy id []).count v := Nat.pos_of_ne_zero hc
              rw [hcount v] at hpos
              obtain ⟨e, he, hp⟩ := List.countP_pos.mp hpos
              simp only [decide_eq_true_eq] at hp
              have hsrc := all_sources_in_of_fromCnt_eq hold e he hp.2
              rw [hp.1] at hsrc
              exact hido hsrc
            rw [hfc v, hcv]
            simpa using hold
          · have h2 := (hpr2 v).mp h
            have hle2 := fromCnt_le_inCnt E (o ++ [id]) v
            rw [hfc v] at hle2 ⊢
            have hdv := hinv.deg_val v
            have h21 := h2.1
            have h22 := h2.2
            rw [hdv] at h21 h22
            omega
        · intro u v he o₁ o₂ hsp
          rcases split_append_singleton o₁ o o₂ v id hsp with
            ⟨ho₁, hv, _⟩ | ⟨o₂', ho, _⟩
          · subst hv
            have hall := all_sources_in_of_fromCnt_eq hidq0
            rw [ho₁]
            exact hall (u, v) he rfl
          · exact hinv.o_resp u v he o₁ o₂' ho
        · intro v hv hvo' hvq'
          have hvo : v ∉ o := fun h => hvo' (List.mem_append.mpr (Or.inl h))
          have hvid : v ≠ id := fun h =>
            hvo' (List.mem_append.mpr (Or.inr (by simp [h])))
          have hvr : v ∉ rest := fun h => hvq' (List.mem_append.mpr (Or.inl h))
          have hvp : v ∉ (processNeighbors dBy id deg).2 := fun h =>
            hvq' (List.mem_append.mpr (Or.inr h))
          have hold := hinv.wf_pos v hv hvo (by
            intro h
            rcases List.mem_cons.mp h with h | h
            · exact hvid h
            · exact hvr h)
          intro heq
          rw [hfc v] at heq
          have hlt : fromCnt E o v < inCnt E v :=
            lt_of_le_of_ne (fromCnt_le_inCnt E o v) hold
          apply hvp
          rw [hpr2 v, hinv.deg_val v]
          constructor <;> omega
      have hms : (rest ++ (processNeighbors dBy id deg).2).length
          + 2 * (Kfull.countP (fun v => decide (v ∉ (o ++ [id])
              ∧ v ∉ (rest ++ (processNeighbors dBy id deg).2)))) < f := by
        have hCsplit : Kfull.countP (fun v => decide (v ∉ o ∧ v ∉ id :: rest))
            = Kfull.countP (fun v => decide (v ∉ (o ++ [id])
                ∧ v ∉ (rest ++ (processNeighbors dBy id deg).2)))
              + (processNeighbors dBy id deg).2.length := by
          have hext : ∀ v ∈ Kfull, decide (v ∉ o ∧ v ∉ id :: rest)
              = (decide (v ∉ (o ++ [id])
                  ∧ v ∉ (rest ++ (processNeighbors dBy id deg).2))
                || decide (v ∈ (processNeighbors dBy id deg).2)) := by
            intro v _
            rw [← Bool.decide_or]
            apply decide_eq_decide.mpr
            constructor
            · rintro ⟨h1, h2⟩
              by_cases hp : v ∈ (processNeighbors dBy id deg).2
              · exact Or.inr hp
              · left
                constructor
                · intro hmem
                  rcases List.mem_append.mp hmem with h | h
                  · exact h1 h
                  · simp at h
                    exact h2 (by simp [h])
                · intro hmem
                  rcases List.mem_append.mp hmem with h | h
                  · exact h2 (by simp [h])
                  · exact hp h
            · rintro (⟨h1, h2⟩ | hp)
              · constructor
                · exact fun h => h1 (List.mem_append.mpr (Or.inl h))
                · intro h
                  rcases List.mem_cons.mp h with h | h
                  · exact h1 (List.mem_append.mpr (Or.inr (by simp [h])))
                  · exact h2 (List.mem_append.mpr (Or.inl h))
              · obtain ⟨hano, hani, hanr⟩ := hpryno v hp
                constructor
                · exact hano
                · intro h
                  rcases List.mem_cons.mp h with h | h
                  · exact hani h
                  · exact hanr h
          rw [countP_ext _ _ Kfull hext, countP_or_disjoint _ _ Kfull (by
            intro v _ hand
            simp only [decide_eq_true_eq] at hand
            exact hand.1.2 (List.mem_append.mpr (Or.inr hand.2)))]
          congr 1
          exact countP_mem_list Kfull hKnodup (processNeighbors dBy id deg).2
            hprnd hpryK
        simp only [List.length_cons, List.length_append] at hm ⊢
        omega
      exact ih (rest ++ (processNeighbors dBy id deg).2)
        (processNeighbors dBy id deg).1 (o ++ [id]) hinv' hms

lemma lookup_of_mem_nodup {α : Type} :
    ∀ (m : List (String × α)), (m.map Prod.fst).Nodup →
      ∀ {k : String} {v : α}, (k, v) ∈ m → m.lookup k = some v := by
  intro m
  induction m with
  | nil => intro _ k v h; cases h
  | cons p rest ih =>
    intro hnd k v h
    obtain ⟨k0, v0⟩ := p
    simp only [List.map_cons] at hnd
    rcases List.mem_cons.mp h with h2 | h2
    · injection h2 with h1 h3
      subst h1
      subst h3
      simp [List.lookup]
    · have hk : k ≠ k0 := by
        intro he
        exact (List.nodup_cons.mp hnd).1
          (he ▸ List.mem_map.mpr ⟨(k, v), h2, rfl⟩)
      rw [List.lookup, beq_false_of_ne hk]
      exact ih (List.nodup_cons.mp hnd).2 h2

lemma mem_of_lookup {α : Type} :
    ∀ (m : List (String × α)) {k : String} {v : α},
      m.lookup k = some v → (k, v) ∈ m := by
  intro m
  induction m with
  | nil => intro k v h; simp [List.lookup] at h
  | cons p rest ih =>
    intro k v h
    obtain ⟨k0, v0⟩ := p
    by_cases hk : k = k0
    · subst hk
      simp [List.lookup] at h
      simp [h]
    · rw [List.lookup, beq_false_of_ne hk] at h
      exact List.mem_cons.mpr (Or.inr (ih h))

lemma mem_validEdges {wfKeys : List String} {deps : List (String × List String)}
    {e : String × String} :
    e ∈ validEdges wfKeys deps ↔
      ∃ entry ∈ deps, e.2 = entry.1 ∧ e.1 ∈ entry.2 ∧ e.1 ∈ wfKeys := by
  unfold validEdges
  rw [List.mem_flatMap]
  constructor
  · rintro ⟨entry, hentry, he⟩
    rw [List.mem_map] at he
    obtain ⟨dep, hdep, heq⟩ := he
    rw [List.mem_filter] at hdep
    refine ⟨entry, hentry, ?_, ?_, ?_⟩
    · rw [← heq]
    · rw [← heq]
      exact hdep.1
    · rw [← heq]
      simpa using hdep.2
  · rintro ⟨entry, hentry, h2, h1, hw⟩
    refine ⟨entry, hentry, List.mem_map.mpr ⟨e.1,
      List.mem_filter.mpr ⟨h1, by simpa using hw⟩, ?_⟩⟩
    rw [show (e.1, entry.1) = e from by rw [← h2]]

lemma validEdges_src {wfKeys : List String} {deps : List (String × List String)}
    {e : String × String} (h : e ∈ validEdges wfKeys deps) : e.1 ∈ wfKeys :=
  (mem_validEdges.mp h).choose_spec.2.2.2

lemma edge_of_dep {m : Manifest} {a : String} {ds : List String} {b : String}
    (h : (a, ds) ∈ m.dependencies) (hb : b ∈ ds)
    (hbk : b ∈ manifestWfKeys m) : (b, a) ∈ manifestEdges m :=
  mem_validEdges.mpr ⟨(a, ds), h, rfl, hb, hbk⟩

lemma split_unique {α : Type} :
    ∀ (x₁ : List α) (x₂ y₁ y₂ : List α) (a : α),
      x₁ ++ a :: x₂ = y₁ ++ a :: y₂ → a ∉ x₁ → a ∉ y₁ →
      x₁ = y₁ ∧ x₂ = y₂ := by
  intro x₁
  induction x₁ with
  | nil =>
    intro x₂ y₁ y₂ a h ha1 ha2
    cases y₁ with
    | nil =>
      rw [List.nil_append, List.nil_append] at h
      injection h with _ h2
      exact ⟨rfl, h2⟩
    | cons b y₁' =>
      rw [List.nil_append, List.cons_append] at h
      injection h with h1 _
      exact absurd (by simp [h1] : a ∈ b :: y₁') ha2
  | cons c x₁' ih =>
    intro x₂ y₁ y₂ a h ha1 ha2
    cases y₁ with
    | nil =>
      rw [List.cons_append, List.nil_append] at h
      injection h with h1 _
      exact absurd (by simp [h1.symm] : a ∈ c :: x₁') ha1
    | cons b y₁' =>
      rw [List.cons_append, List.cons_append] at h
      injection h with h1 h2
      have hr := ih x₂ y₁' y₂ a h2
        (fun hm => ha1 (by simp [hm])) (fun hm => ha2 (by simp [hm]))
      exact ⟨by rw [h1, hr.1], hr.2⟩

lemma before_trans {r : List String} (hnd : r.Nodup) {a b c : String}
    (h1 : Before r a b) (h2 : Before r b c) : Before r a c := by
  obtain ⟨s₁, s₂, hs, ha⟩ := h1
  obtain ⟨t₁, t₂, ht, hb⟩ := h2
  obtain ⟨p, q, hpq⟩ := List.append_of_mem hb
  have hr2 : r = p ++ b :: (q ++ c :: t₂) := by
    rw [ht, hpq]
    simp
  have hbs : b ∉ s₁ := by
    have h := hnd
    rw [hs, List.nodup_append] at h
    exact fun hmem => h.2.2 hmem (by simp)
  have hbp : b ∉ p := by
    have h := hnd
    rw [hr2, List.nodup_append] at h
    exact fun hmem => h.2.2 hmem (by simp)
  obtain ⟨he1, he2⟩ := split_unique s₁ s₂ p (q ++ c :: t₂) b
    (by rw [← hs, ← hr2]) hbs hbp
  refine ⟨s₁ ++ b :: q, t₂, ?_, List.mem_append.mpr (Or.inl ha)⟩
  rw [hs, he2]
  simp

lemma before_irrefl {r : List String} (hnd : r.Nodup) (a : String) :
    ¬ Before r a a := by
  rintro ⟨r₁, r₂, hsp, ha⟩
  rw [hsp, List.nodup_append] at hnd
  exact hnd.2.2 ha (by simp)

/-- A nonempty finite set in which every element has an incoming edge from
the set contains a cycle. -/
lemma exists_cycle_of_all_pred (E : List (String × String)) (S : List String)
    (hne : S ≠ []) (hpred : ∀ v ∈ S, ∃ u ∈ S, (u, v) ∈ E) :
    ∃ x, Relation.TransGen (fun a b => (a, b) ∈ E) x x := by
  classical
  have hex : ∀ v : String, ∃ u, v ∈ S → (u ∈ S ∧ (u, v) ∈ E) := by
    intro v
    by_cases h : v ∈ S
    · obtain ⟨u, hu, he⟩ := hpred v h
      exact ⟨u, fun _ => ⟨hu, he⟩⟩
    · exact ⟨v, fun h2 => absurd h2 h⟩
  choose f hf using hex
  obtain ⟨v₀, hv₀⟩ : ∃ v, v ∈ S := by
    cases S with
    | nil => exact absurd rfl hne
    | cons a t => exact ⟨a, by simp⟩
  have hgS : ∀ n, f^[n] v₀ ∈ S := by
    intro n
    induction n with
    | zero => exact hv₀
    | succ k ihk =>
      rw [Function.iterate_succ_apply']
      exact (hf (f^[k] v₀) ihk).1
  have hmap : ∀ i ∈ Finset.range (S.length + 1), f^[i] v₀ ∈ S.toFinset :=
    fun i _ => List.mem_toFinset.mpr (hgS i)
  have hcard : S.toFinset.card < (Finset.range (S.length + 1)).card := by
    rw [Finset.card_range]
    exact Nat.lt_succ_of_le (List.toFinset_card_le S)
  obtain ⟨i, hi, j, hj, hij, heq⟩ :=
    Finset.exists_ne_map_eq_of_card_lt_of_maps_to hcard hmap
  have hpath : ∀ (n k : Nat), 1 ≤ k →
      Relation.TransGen (fun a b => (a, b) ∈ E) (f^[n + k] v₀) (f^[n] v₀) := by
    intro n k
    induction k with
    | zero => intro h; omega
    | succ k' ihk =>
      intro _
      rcases Nat.eq_zero_or_pos k' with rfl | hk'
      · apply Relation.TransGen.single
        rw [show n + 1 = (n : Nat) + 1 from rfl, Function.iterate_succ_apply']
        exact (hf (f^[n] v₀) (hgS n)).2
      · apply Relation.TransGen.head
        · rw [show n + (k' + 1) = (n + k') + 1 from by omega,
            Function.iterate_succ_apply']
          exact (hf (f^[n + k'] v₀) (hgS (n + k'))).2
        · exact ihk hk'
  rcases Nat.lt_or_ge i j with hlt | hge
  · refine ⟨f^[j] v₀, ?_⟩
    have := hpath i (j - i) (by omega)
    rw [show i + (j - i) = j from by omega, heq] at this
    exact this
  · have hlt : j < i := by omega
    refine ⟨f^[i] v₀, ?_⟩
    have := hpath j (i - j) (by omega)
    rw [show j + (i - j) = i from by omega, ← heq] at this
    exact this

/-- A ranking on which every edge strictly increases rules out cycles. -/
lemma no_cycle_of_rank (m : Manifest) (rank : String → Nat)
    (h : ∀ e ∈ manifestEdges m, rank e.1 < rank e.2) :
    ∀ v, ¬ Relation.TransGen (DependsEdge m) v v := by
  have mono : ∀ a b, Relation.TransGen (DependsEdge m) a b → rank a < rank b := by
    intro a b htg
    induction htg with
    | single e => exact h _ e
    | tail _ e ihb => exact lt_trans ihb (h _ e)
  intro v hv
  exact lt_irrefl _ (mono v v hv)


/-- Facts about the initial queue of `getPushOrder`: keys of zero-valued
entries of a duplicate-free in-degree map. -/
lemma queue0_facts (deg : List (String × Int)) (hnd : (deg.map Prod.fst).Nodup) :
    (∀ v ∈ (deg.filter (fun p => decide (p.2 = 0))).map Prod.fst,
      v ∈ deg.map Prod.fst) ∧
    ((deg.filter (fun p => decide (p.2 = 0))).map Prod.fst).Nodup ∧
    (∀ v ∈ (deg.filter (fun p => decide (p.2 = 0))).map Prod.fst,
      getA deg v 0 = 0) ∧
    (∀ v ∈ deg.map Prod.fst, getA deg v 0 = 0 →
      v ∈ (deg.filter (fun p => decide (p.2 = 0))).map Prod.fst) := by
  refine ⟨?_, ?_, ?_, ?_⟩
  · intro v hv
    rw [List.mem_map] at hv
    obtain ⟨p, hp, hfst⟩ := hv
    rw [List.mem_filter] at hp
    exact hfst ▸ List.mem_map.mpr ⟨p, hp.1, rfl⟩
  · exact List.Nodup.sublist (List.Sublist.map Prod.fst (List.filter_sublist deg)) hnd
  · intro v hv
    rw [List.mem_map] at hv
    obtain ⟨p, hp, hfst⟩ := hv
    rw [List.mem_filter] at hp
    have hval : p.2 = 0 := by simpa using hp.2
    have hlk : deg.lookup v = some p.2 := by
      apply lookup_of_mem_nodup deg hnd
      rw [show (v, p.2) = p from by rw [← hfst]]
      exact hp.1
    unfold getA
    rw [hlk, hval]
  · intro v hv hz
    have hsome : (deg.lookup v).isSome = true :=
      (lookup_isSome_iff_mem_keys deg v).mpr hv
    obtain ⟨d, hd⟩ := Option.isSome_iff_exists.mp hsome
    have hdz : d = 0 := by
      unfold getA at hz
      rw [hd] at hz
      exact hz
    rw [List.mem_map]
    exact ⟨(v, d), List.mem_filter.mpr ⟨mem_of_lookup deg hd, by simp [hdz]⟩, rfl⟩

/-- `getPushOrder` unfolded to the Kahn loop over the built graph. -/
lemma getPushOrder_eq (m : Manifest) :
    m.getPushOrder
      = kahnLoop (buildGraph (manifestWfKeys m) m.dependencies).1
          (2 * (buildGraph (manifestWfKeys m) m.dependencies).2.length + 1)
          (((buildGraph (manifestWfKeys m) m.dependencies).2.filter
              (fun p => decide (p.2 = 0))).map Prod.fst)
          (buildGraph (manifestWfKeys m) m.dependencies).2 [] := rfl

/-- Backbone facts about `getPushOrder` for any manifest whose workflow keys
are distinct (as Go map keys are): the order has no duplicates, contains
only in-degree-map keys, emits every edge source before its target, and any
workflow key it omits still lacks an emitted in-edge source. -/
lemma getPushOrder_master (m : Manifest) (hw : (manifestWfKeys m).Nodup) :
    (m.getPushOrder).Nodup ∧
    (∀ v ∈ m.getPushOrder,
      v ∈ (buildGraph (manifestWfKeys m) m.dependencies).2.map Prod.fst) ∧
    (∀ u v, (u, v) ∈ manifestEdges m → ∀ r₁ r₂,
      m.getPushOrder = r₁ ++ v :: r₂ → u ∈ r₁) ∧
    (∀ v ∈ manifestWfKeys m, v ∉ m.getPushOrder →
      fromCnt (manifestEdges m) m.getPushOrder v ≠ inCnt (manifestEdges m) v) := by
  have hdeg : ∀ v, getA (buildGraph (manifestWfKeys m) m.dependencies).2 v 0
      = inCnt (manifestEdges m) v := by
    intro v
    have h := foldl_addEdge_deg (manifestEdges m)
      ([], (manifestWfKeys m).map (fun k => (k, (0 : Int)))) v
    dsimp only at h
    rw [getA_init_zero, zero_add] at h
    exact h
  have hdBy : ∀ u, getA (buildGraph (manifestWfKeys m) m.dependencies).1 u []
      = ((manifestEdges m).filter (fun e => decide (e.1 = u))).map Prod.snd := by
    intro u
    have h := foldl_addEdge_dBy (manifestEdges m)
      ([], (manifestWfKeys m).map (fun k => (k, (0 : Int)))) u
    dsimp only at h
    rw [show getA ([] : List (String × List String)) u [] = [] from rfl,
      List.nil_append] at h
    exact h
  obtain ⟨hk1, hk2, hk3⟩ := foldl_addEdge_keys (manifestEdges m)
    ([], (manifestWfKeys m).map (fun k => (k, (0 : Int))))
  have htgt : ∀ e ∈ manifestEdges m,
      e.2 ∈ (buildGraph (manifestWfKeys m) m.dependencies).2.map Prod.fst := hk2
  have hKnodup :
      ((buildGraph (manifestWfKeys m) m.dependencies).2.map Prod.fst).Nodup := by
    apply hk3
    dsimp only
    rw [init_keys]
    exact hw
  have hwfK : ∀ v ∈ manifestWfKeys m,
      v ∈ (buildGraph (manifestWfKeys m) m.dependencies).2.map Prod.fst := by
    intro v hv
    apply hk1
    dsimp only
    rw [init_keys]
    exact hv
  obtain ⟨hq0sub, hq0nodup, hq0zero, hq0comp⟩ :=
    queue0_facts (buildGraph (manifestWfKeys m) m.dependencies).2 hKnodup
  have hinv : KInv (manifestEdges m) (manifestWfKeys m)
      ((buildGraph (manifestWfKeys m) m.dependencies).2.map Prod.fst)
      (((buildGraph (manifestWfKeys m) m.dependencies).2.filter
          (fun p => decide (p.2 = 0))).map Prod.fst)
      (buildGraph (manifestWfKeys m) m.dependencies).2 [] := by
    constructor
    · intro v
      rw [fromCnt_nil, hdeg v]
      ring
    · simpa using hq0nodup
    · intro v hv
      exact hq0sub v (by simpa using hv)
    · intro v hv
      rw [fromCnt_nil]
      have h0 := hq0zero v hv
      rw [hdeg v] at h0
      omega
    · intro u v _ o₁ o₂ hsp
      exact absurd hsp (by cases o₁ <;> simp)
    · intro v hv _ hvq
      rw [fromCnt_nil]
      intro heq
      apply hvq
      apply hq0comp v (hwfK v hv)
      rw [hdeg v]
      omega
  have hmeas :
      (((buildGraph (manifestWfKeys m) m.dependencies).2.filter
          (fun p => decide (p.2 = 0))).map Prod.fst).length +
        2 * (((buildGraph (manifestWfKeys m) m.dependencies).2.map Prod.fst).countP
          (fun v => decide (v ∉ ([] : List String) ∧
            v ∉ ((buildGraph (manifestWfKeys m) m.dependencies).2.filter
              (fun p => decide (p.2 = 0))).map Prod.fst)))
        < 2 * (buildGraph (manifestWfKeys m) m.dependencies).2.length + 1 := by
    have h1 : ((buildGraph (manifestWfKeys m) m.dependencies).2.map Prod.fst).countP
        (fun v => decide (v ∉ ([] : List String) ∧
          v ∉ ((buildGraph (manifestWfKeys m) m.dependencies).2.filter
            (fun p => decide (p.2 = 0))).map Prod.fst))
        = ((buildGraph (manifestWfKeys m) m.dependencies).2.map Prod.fst).countP
          (fun v => !decide
            (v ∈ ((buildGraph (manifestWfKeys m) m.dependencies).2.filter
              (fun p => decide (p.2 = 0))).map Prod.fst)) := by
      apply countP_ext
      intro a _
      simp
    have h2 : ((buildGraph (manifestWfKeys m) m.dependencies).2.map Prod.fst).countP
          (fun v => decide
            (v ∈ ((buildGraph (manifestWfKeys m) m.dependencies).2.filter
              (fun p => decide (p.2 = 0))).map Prod.fst)) +
        ((buildGraph (manifestWfKeys m) m.dependencies).2.map Prod.fst).countP
          (fun v => !decide
            (v ∈ ((buildGraph (manifestWfKeys m) m.dependencies).2.filter
              (fun p => decide (p.2 = 0))).map Prod.fst)) =
        ((buildGraph (manifestWfKeys m) m.dependencies).2.map Prod.fst).length :=
      countP_add_not _ _
    have h3 := countP_mem_list
      ((buildGraph (manifestWfKeys m) m.dependencies).2.map Prod.fst) hKnodup
      (((buildGraph (manifestWfKeys m) m.dependencies).2.filter
          (fun p => decide (p.2 = 0))).map Prod.fst) hq0nodup hq0sub
    have h4 : ((buildGraph (manifestWfKeys m) m.dependencies).2.map Prod.fst).length
        = (buildGraph (manifestWfKeys m) m.dependencies).2.length :=
      List.length_map _ _
    rw [h1]
    omega
  have hmain := kahn_master (manifestEdges m) (manifestWfKeys m)
    ((buildGraph (manifestWfKeys m) m.dependencies).2.map Prod.fst)
    (buildGraph (manifestWfKeys m) m.dependencies).1 hdBy htgt hKnodup
    (2 * (buildGraph (manifestWfKeys m) m.dependencies).2.length + 1)
    (((buildGraph (manifestWfKeys m) m.dependencies).2.filter
        (fun p => decide (p.2 = 0))).map Prod.fst)
    (buildGraph (manifestWfKeys m) m.dependencies).2 [] hinv hmeas
  rw [getPushOrder_eq m]
  exact hmain

/-- Along any dependency chain ending at an emitted workflow, every ancestor
is emitted strictly earlier: the push order respects the transitive closure
of the dependency edges. -/
lemma order_respects_before (m : Manifest) (hw : (manifestWfKeys m).Nodup) :
    ∀ {u v}, Relation.TransGen (DependsEdge m) u v →
      v ∈ m.getPushOrder → Before m.getPushOrder u v := by
  obtain ⟨hnd, _, hresp, _⟩ := getPushOrder_master m hw
  have hstep : ∀ {u v}, (u, v) ∈ manifestEdges m → v ∈ m.getPushOrder →
      Before m.getPushOrder u v := by
    intro u v he hv
    obtain ⟨r₁, r₂, hsp⟩ := List.append_of_mem hv
    exact ⟨r₁, r₂, hsp, hresp u v he r₁ r₂ hsp⟩
  intro u v htg
  induction htg with
  | single e => exact fun hv => hstep e hv
  | tail hab e ih =>
    intro hv
    obtain ⟨r₁, r₂, hsp, hbm⟩ := hstep e hv
    have hbo := hsp ▸ List.mem_append.mpr (Or.inl hbm)
    exact before_trans hnd (ih hbo) ⟨r₁, r₂, hsp, hbm⟩

/-- C6: when the dependency edges restricted to workflow keys contain a
cycle, every workflow on the cycle is omitted from `getPushOrder` (for any
manifest with distinct workflow keys, as Go map keys are); in particular the
two-workflow manifest with dependencies A:[B] and B:[A] emits neither A nor
B. -/
theorem getPushOrder_omits_cycles :
    (∀ (m : Manifest), (manifestWfKeys m).Nodup →
      ∀ v, Relation.TransGen (DependsEdge m) v v → v ∉ m.getPushOrder) ∧
    ("A" ∉ (Manifest.getPushOrder
        ⟨"A", [("A", mkMeta "A"), ("B", mkMeta "B")],
         [("A", ["B"]), ("B", ["A"])]⟩) ∧
     "B" ∉ (Manifest.getPushOrder
        ⟨"A", [("A", mkMeta "A"), ("B", mkMeta "B")],
         [("A", ["B"]), ("B", ["A"])]⟩)) := by
  refine ⟨?_, by decide, by decide⟩
  intro m hw v htg hv
  exact before_irrefl (getPushOrder_master m hw).1 v
    (order_respects_before m hw htg hv)

/-- Witness for C6: the A-B dependency cycle, with the cyclic chain built
explicitly, forces A out of the push order. -/
theorem getPushOrder_omits_cycles_witness :
    "A" ∉ (Manifest.getPushOrder
      ⟨"A", [("A", mkMeta "A"), ("B", mkMeta "B")],
       [("A", ["B"]), ("B", ["A"])]⟩) :=
  getPushOrder_omits_cycles.1
    ⟨"A", [("A", mkMeta "A"), ("B", mkMeta "B")],
     [("A", ["B"]), ("B", ["A"])]⟩ (by decide) "A"
    (Relation.TransGen.head
      (show DependsEdge
          ⟨"A", [("A", mkMeta "A"), ("B", mkMeta "B")],
           [("A", ["B"]), ("B", ["A"])]⟩ "A" "B" by decide)
      (Relation.TransGen.single
        (show DependsEdge
            ⟨"A", [("A", mkMeta "A"), ("B", mkMeta "B")],
             [("A", ["B"]), ("B", ["A"])]⟩ "B" "A" by decide)))

/-- C1 counterexample: with the dependency cycle A:[B], B:[A], workflow key
A is a manifest workflow key yet absent from the returned order, so the
order does not contain exactly the workflow keys. -/
theorem getPushOrder_drops_keys_cex :
    "A" ∈ manifestWfKeys
      ⟨"A", [("A", mkMeta "A"), ("B", mkMeta "B")],
       [("A", ["B"]), ("B", ["A"])]⟩ ∧
    "A" ∉ Manifest.getPushOrder
      ⟨"A", [("A", mkMeta "A"), ("B", mkMeta "B")],
       [("A", ["B"]), ("B", ["A"])]⟩ := by decide

/-- C1 (amended): for a manifest with distinct workflow keys whose
dependency entries all concern workflow keys and whose dependency edges
(restricted to workflow keys) are acyclic, `getPushOrder` returns exactly
the workflow keys, each exactly once, and every dependency `a depends on b`
with both keys in the manifest places `b` strictly before `a`. -/
theorem getPushOrder_topological (m : Manifest)
    (hw : (manifestWfKeys m).Nodup)
    (hdeps : ∀ p ∈ m.dependencies, p.1 ∈ manifestWfKeys m)
    (hacyc : ∀ v, ¬ Relation.TransGen (DependsEdge m) v v) :
    (∀ v, v ∈ m.getPushOrder ↔ v ∈ manifestWfKeys m) ∧
    m.getPushOrder.Nodup ∧
    (∀ u v, DependsEdge m u v → Before m.getPushOrder u v) := by
  have hKeq : (buildGraph (manifestWfKeys m) m.dependencies).2.map Prod.fst
      = manifestWfKeys m := by
    have h := foldl_addEdge_keys_eq (manifestEdges m)
      ([], (manifestWfKeys m).map (fun k => (k, (0 : Int))))
      (by
        intro e he
        dsimp only
        rw [init_keys]
        obtain ⟨entry, hentry, h2, _, _⟩ := mem_validEdges.mp he
        have hk := hdeps entry hentry
        rw [← h2] at hk
        exact hk)
    dsimp only at h
    rw [init_keys] at h
    exact h
  obtain ⟨hnd, hmem, hresp, hmiss⟩ := getPushOrder_master m hw
  rw [hKeq] at hmem
  have hcomp : ∀ v ∈ manifestWfKeys m, v ∈ m.getPushOrder := by
    by_contra hcon
    push_neg at hcon
    obtain ⟨v₀, hv₀k, hv₀o⟩ := hcon
    have hSne : (manifestWfKeys m).filter
        (fun v => decide (v ∉ m.getPushOrder)) ≠ [] := by
      intro hnil
      have hv₀S : v₀ ∈ (manifestWfKeys m).filter
          (fun v => decide (v ∉ m.getPushOrder)) :=
        List.mem_filter.mpr ⟨hv₀k, by simpa using hv₀o⟩
      rw [hnil] at hv₀S
      exact absurd hv₀S (List.not_mem_nil v₀)
    have hpred : ∀ v ∈ (manifestWfKeys m).filter
        (fun v => decide (v ∉ m.getPushOrder)),
        ∃ u ∈ (manifestWfKeys m).filter
          (fun v => decide (v ∉ m.getPushOrder)), (u, v) ∈ manifestEdges m := by
      intro v hv
      rw [List.mem_filter] at hv
      have hv₂ : v ∉ m.getPushOrder := by simpa using hv.2
      obtain ⟨u, hu, huo⟩ := exists_src_outside_of_ne (hmiss v hv.1 hv₂)
      exact ⟨u, List.mem_filter.mpr ⟨validEdges_src hu, by simpa using huo⟩, hu⟩
    obtain ⟨x, hx⟩ := exists_cycle_of_all_pred (manifestEdges m) _ hSne hpred
    exact hacyc x hx
  refine ⟨fun v => ⟨hmem v, hcomp v⟩, hnd, ?_⟩
  intro u v he
  have hvk : v ∈ manifestWfKeys m := by
    obtain ⟨entry, hentry, h2, _, _⟩ := mem_validEdges.mp he
    have hk := hdeps entry hentry
    rw [← h2] at hk
    exact hk
  exact order_respects_before m hw (Relation.TransGen.single he) (hcomp v hvk)

/-- Witness for C1 (amended): on the acyclic manifest with workflows A, B, C
and dependencies A:[B], B:[C], the order contains A and places C before B. -/
theorem getPushOrder_topological_witness :
    "A" ∈ Manifest.getPushOrder
      ⟨"A", [("A", mkMeta "A"), ("B", mkMeta "B"), ("C", mkMeta "C")],
       [("A", ["B"]), ("B", ["C"])]⟩ ∧
    Before (Manifest.getPushOrder
      ⟨"A", [("A", mkMeta "A"), ("B", mkMeta "B"), ("C", mkMeta "C")],
       [("A", ["B"]), ("B", ["C"])]⟩) "C" "B" := by
  have h := getPushOrder_topological
    ⟨"A", [("A", mkMeta "A"), ("B", mkMeta "B"), ("C", mkMeta "C")],
     [("A", ["B"]), ("B", ["C"])]⟩ (by decide) (by decide)
    (no_cycle_of_rank _
      (fun s => if s = "C" then 0 else if s = "B" then 1 else 2) (by decide))
  exact ⟨(h.1 "A").mpr (by decide), h.2.2 "C" "B" (by decide)⟩

/-- C8 counterexample: two manifests denoting the same Go map values (the
workflow entry lists are permutations of each other, dependencies and root
equal) — i.e. two runs over one manifest value under Go's randomized map
iteration order — produce different push orders, so the order is not
determined by the manifest value alone. -/
theorem getPushOrder_nondeterministic_cex :
    (Manifest.workflows
        ⟨"A", [("A", mkMeta "A"), ("B", mkMeta "B")], []⟩).Perm
      (Manifest.workflows
        ⟨"A", [("B", mkMeta "B"), ("A", mkMeta "A")], []⟩) ∧
    Manifest.dependencies ⟨"A", [("A", mkMeta "A"), ("B", mkMeta "B")], []⟩
      = Manifest.dependencies ⟨"A", [("B", mkMeta "B"), ("A", mkMeta "A")], []⟩ ∧
    Manifest.rootWorkflow ⟨"A", [("A", mkMeta "A"), ("B", mkMeta "B")], []⟩
      = Manifest.rootWorkflow ⟨"A", [("B", mkMeta "B"), ("A", mkMeta "A")], []⟩ ∧
    Manifest.getPushOrder ⟨"A", [("A", mkMeta "A"), ("B", mkMeta "B")], []⟩
      ≠ Manifest.getPushOrder ⟨"A", [("B", mkMeta "B"), ("A", mkMeta "A")], []⟩ := by
  decide

/-- C8 (amended): the order is a deterministic function of the manifest
representation including its concrete iteration order — equal representations
give equal orders — and whatever tie-break that iteration order induces, the
emitted order never violates the dependency partial order: an emitted
dependent always comes after its in-manifest dependency. -/
theorem getPushOrder_deterministic_respects (m₁ m₂ : Manifest) (h : m₁ = m₂) :
    m₁.getPushOrder = m₂.getPushOrder ∧
    ((manifestWfKeys m₁).Nodup →
      ∀ u v, DependsEdge m₁ u v → v ∈ m₁.getPushOrder →
        Before m₁.getPushOrder u v) := by
  refine ⟨by rw [h], ?_⟩
  intro hw u v he hv
  exact order_respects_before m₁ hw (Relation.TransGen.single he) hv

/-- Witness for C8 (amended): the one-workflow manifest with the dangling
dependent A — the push order is self-equal and B precedes A. -/
theorem getPushOrder_deterministic_respects_witness :
    Manifest.getPushOrder ⟨"B", [("B", mkMeta "B")], [("A", ["B"])]⟩
      = Manifest.getPushOrder ⟨"B", [("B", mkMeta "B")], [("A", ["B"])]⟩ ∧
    Before (Manifest.getPushOrder ⟨"B", [("B", mkMeta "B")], [("A", ["B"])]⟩)
      "B" "A" := by
  have h := getPushOrder_deterministic_respects
    ⟨"B", [("B", mkMeta "B")], [("A", ["B"])]⟩
    ⟨"B", [("B", mkMeta "B")], [("A", ["B"])]⟩ rfl
  exact ⟨h.1, h.2 (by decide) "B" "A" (by decide) (by decide)⟩
